import Mathlib

/-!
# Juroku: ComputerCraft image encoder (`cc.go`)

A shallow embedding of `GenerateCode`, `chunkToByte` and the `colorToHex`
template function of `cc.go`, followed by theorems about them.

Conventions of the embedding:

* a Go `byte` is a `Nat` (the values that occur are below 256; where the source
  computes in `byte` or `uint32` arithmetic the reduction is written out);
* a Go `int` coordinate is an `Int`.  `colLoop`, `rowLoop` and `GenerateCode` compute
  on the integers, which is what the program does as long as `x += 2`, `y += 3`,
  `x + dx`, `y + dy`, `Dx()` and `Dy()` do not overflow; `colLoopInt64`, `rowLoopInt64`
  and `GenerateCodeInt64` are the same code in 64-bit `int` arithmetic with
  wrap-around, and `GenerateCodeInt64_eq_GenerateCode` states when the two agree;
* indexing a slice or a string out of range, which panics in Go, is a `none` /
  `Failure.panic` result;
* the Go map `paletteToColor` is a partial function, read with the zero value
  for an absent key as Go does.
-/

set_option linter.dupNamespace false

namespace Juroku

/-! ## Data model -/

/-- Go `color.RGBA`: four 8-bit channels. -/
structure RGBA where
  R : Nat
  G : Nat
  B : Nat
  A : Nat
deriving DecidableEq, Repr

/-- Go `image.Point`. -/
structure Point where
  X : Int
  Y : Int
deriving DecidableEq, Repr

/-- Go `image.Rectangle`: the points with `Min.X ≤ x < Max.X`, `Min.Y ≤ y < Max.Y`. -/
structure Rectangle where
  Min : Point
  Max : Point
deriving DecidableEq, Repr

/-- Go `Rectangle.Dx`: the width. -/
def Rectangle.Dx (r : Rectangle) : Int := r.Max.X - r.Min.X

/-- Go `Rectangle.Dy`: the height. -/
def Rectangle.Dy (r : Rectangle) : Int := r.Max.Y - r.Min.Y

/-- Go `image.Image` with underlying colour type `color.RGBA` (as the doc comment of
`GenerateCode` requires): its bounds and its pixel function `At`.  The bounds of an
image are a well-formed rectangle (`Min.X ≤ Max.X` and `Min.Y ≤ Max.Y`).  `At` is
total, as in Go, where a point outside the bounds has some colour too. -/
structure Image where
  Bounds : Rectangle
  At : Int → Int → RGBA
  wellFormed : Bounds.Min.X ≤ Bounds.Max.X ∧ Bounds.Min.Y ≤ Bounds.Max.Y

/-- The two ways a Go call can fail: a returned `error` value or a run-time panic. -/
inductive Failure where
  | error (msg : String)
  | panic (msg : String)
deriving DecidableEq, Repr

/-- The Go map `map[color.RGBA]byte`. -/
abbrev ColorMap := RGBA → Option Nat

/-- The map `make(map[color.RGBA]byte)`: no key is present. -/
def ColorMap.empty : ColorMap := fun _ => none

/-- The assignment `m[k] = v`. -/
def ColorMap.set (m : ColorMap) (k : RGBA) (v : Nat) : ColorMap :=
  fun c => if c = k then some v else m c

/-- The read `m[k]`: the zero byte when the key is absent. -/
def ColorMap.get (m : ColorMap) (k : RGBA) : Nat := (m k).getD 0

/-- The local struct `rowData` of `GenerateCode`. -/
structure rowData where
  Text : List Nat
  TextColor : List Nat
  BgColor : List Nat
deriving DecidableEq, Repr

/-- The anonymous struct that `GenerateCode` hands to the template `cc`. -/
structure templateData where
  Rows : List rowData
  Palette : List RGBA
  Width : Int
  Height : Int
deriving DecidableEq

/-! ## `chunkToByte` -/

/-- The body of the loop `for i = 0; i < 6; i++` of `chunkToByte`, on the state
`(b, textColor)`; `b` is a `byte`, so `1 << i` and the result of `|=` are taken
modulo 256. -/
def chunkStep (chunk : List Nat) (bgColor : Nat) (st : Nat × Nat) (i : Nat) :
    Option (Nat × Nat) :=
  match chunk[i]? with
  | none => none
  | some ci =>
    if ci ≠ bgColor then
      some ((st.1 ||| ((1 <<< i) % 256)) % 256, ci)
    else
      some ((st.1 ||| ((0 <<< i) % 256)) % 256, st.2)

/-- Go `chunkToByte`: the result is `(b, textColor, bgColor)`, and `none` when an
index is out of range. -/
def chunkToByte (chunk : List Nat) : Option (Nat × Nat × Nat) :=
  match chunk[5]? with
  | none => none
  | some bgColor =>
    match (List.range 6).foldlM (chunkStep chunk bgColor) (0, 0) with
    | none => none
    | some (b, textColor) =>
      some (b, if textColor = 0 then 48 else textColor, bgColor)

/-! ## `GenerateCode` -/

/-- The string `colorsCodes` of `GenerateCode`. -/
def colorsCodes : String := "0123456789abcdef"

/-- A ColorIndex: a byte that is one of the characters of `colorsCodes`. -/
def ColorIndex (c : Nat) : Prop := c ∈ colorsCodes.toList.map Char.toNat

instance (c : Nat) : Decidable (ColorIndex c) := by
  unfold ColorIndex
  infer_instance

/-- The byte `colorsCodes[i]`, `none` when `i` is out of range. -/
def colorsCodesAt (i : Nat) : Option Nat := colorsCodes.toList[i]?.map Char.toNat

/-- The loop `for i, col := range palette { paletteToColor[col] = colorsCodes[i] }`,
from position `i` on with the map built so far. -/
def paletteLoop : List RGBA → Nat → ColorMap → Except Failure ColorMap
  | [], _, m => .ok m
  | col :: rest, i, m =>
    match colorsCodesAt i with
    | none => .error (.panic "index out of range")
    | some code => paletteLoop rest (i + 1) (m.set col code)

/-- The two inner loops over `dy` and `dx` that fill `chunk` for the block whose
top-left pixel is `(x, y)`. -/
def buildChunk (img : Image) (paletteToColor : ColorMap) (x y : Int) : List Nat :=
  (List.range 3).foldl
    (fun chunk dy =>
      (List.range 2).foldl
        (fun chunk dx => chunk ++ [paletteToColor.get (img.At (x + dx) (y + dy))])
        chunk)
    []

/-- The loop `for x := ...; x < img.Bounds().Max.X; x += 2` of `GenerateCode`, from
`x` on with the row built so far, with `x += 2` over the integers (see `colLoopInt64`
for the loop with wrap-around). -/
def colLoop (img : Image) (paletteToColor : ColorMap) (y : Int) (x : Int) (row : rowData) :
    Except Failure rowData :=
  if x < img.Bounds.Max.X then
    match chunkToByte (buildChunk img paletteToColor x y) with
    | none => .error (.panic "index out of range")
    | some (b, textColor, bgColor) =>
      colLoop img paletteToColor y (x + 2)
        { Text := row.Text ++ [b],
          TextColor := row.TextColor ++ [textColor],
          BgColor := row.BgColor ++ [bgColor] }
  else
    .ok row
termination_by (img.Bounds.Max.X - x).toNat
decreasing_by omega

/-- The loop `for y := ...; y < img.Bounds().Max.Y; y += 3` of `GenerateCode` (the
row loop), from `y` on with the rows built so far, with `y += 3` over the integers (see
`rowLoopInt64` for the loop with wrap-around). -/
def rowLoop (img : Image) (paletteToColor : ColorMap) (y : Int) (rows : List rowData) :
    Except Failure (List rowData) :=
  if y < img.Bounds.Max.Y then
    match colLoop img paletteToColor y img.Bounds.Min.X ⟨[], [], []⟩ with
    | .error e => .error e
    | .ok row => rowLoop img paletteToColor (y + 3) (rows ++ [row])
  else
    .ok rows
termination_by (img.Bounds.Max.Y - y).toNat
decreasing_by omega

/-- The message of the error that `GenerateCode` returns for a large palette. -/
def paletteTooLarge : Failure := .error "juroku: palette must have <= 16 colors"

/-- Go `GenerateCode`, up to the data it passes to `cc.Execute`: the template prints
these fields into an in-memory buffer, which does not fail.  `palette` is the value of
`GetPalette(img)`, a function of the repository that is not part of `cc.go`.  Go `/` on
`int` truncates, hence `Int.tdiv`. -/
def GenerateCode (palette : List RGBA) (img : Image) : Except Failure templateData :=
  if palette.length > 16 then
    .error paletteTooLarge
  else
    match paletteLoop palette 0 ColorMap.empty with
    | .error e => .error e
    | .ok paletteToColor =>
      match rowLoop img paletteToColor img.Bounds.Min.Y [] with
      | .error e => .error e
      | .ok rows =>
        .ok { Rows := rows,
              Palette := palette,
              Width := img.Bounds.Dx.tdiv 2,
              Height := img.Bounds.Dy.tdiv 3 }

/-! ## The template function `colorToHex` -/

/-- Go `color.RGBA.RGBA`: each 8-bit channel widened to 16 bits in a `uint32`
(`r = uint32(c.R); r |= r << 8`). -/
def RGBA.RGBA (c : RGBA) : Nat × Nat × Nat × Nat :=
  let widen := fun (v : Nat) => ((v % 2 ^ 32) ||| ((v % 2 ^ 32) <<< 8) % 2 ^ 32) % 2 ^ 32
  (widen c.R, widen c.G, widen c.B, widen c.A)

/-- The verb `%X` of `fmt.Sprintf` on an unsigned integer: upper-case hexadecimal
digits, no padding, no leading zeros (`0` for zero). -/
def fmtX (n : Nat) : String := String.mk ((Nat.toDigits 16 n).map Char.toUpper)

/-- The template function `colorToHex`: `fmt.Sprintf("%X%X%X", r>>8, g>>8, b>>8)`. -/
def colorToHex (c : RGBA) : String :=
  match c.RGBA with
  | (r, g, b, _) => fmtX (r >>> 8) ++ fmtX (g >>> 8) ++ fmtX (b >>> 8)

/-! ## Closed forms and sample inputs used by the theorems -/

/-- The six looked-up bytes of the block whose top-left pixel is `(x, y)`, in the order
`(dy, dx) = (0,0), (0,1), (1,0), (1,1), (2,0), (2,1)`. -/
def blockChunk (img : Image) (paletteToColor : ColorMap) (x y : Int) : List Nat :=
  [paletteToColor.get (img.At x y), paletteToColor.get (img.At (x + 1) y),
   paletteToColor.get (img.At x (y + 1)), paletteToColor.get (img.At (x + 1) (y + 1)),
   paletteToColor.get (img.At x (y + 2)), paletteToColor.get (img.At (x + 1) (y + 2))]

/-- The encoded cell of the block whose top-left pixel is `(x, y)`. -/
def encodeBlock (img : Image) (paletteToColor : ColorMap) (x y : Int) : Nat × Nat × Nat :=
  (chunkToByte (blockChunk img paletteToColor x y)).getD (0, 0, 0)

/-- The row of `n` cells that starts at pixel `(x, y)`. -/
def encodeRow (img : Image) (paletteToColor : ColorMap) (x y : Int) (n : Nat) : rowData :=
  { Text := (List.range n).map (fun (k : Nat) => (encodeBlock img paletteToColor (x + 2 * (k : Int)) y).1),
    TextColor := (List.range n).map (fun (k : Nat) => (encodeBlock img paletteToColor (x + 2 * (k : Int)) y).2.1),
    BgColor := (List.range n).map (fun (k : Nat) => (encodeBlock img paletteToColor (x + 2 * (k : Int)) y).2.2) }

/-- The number of iterations of the column loop: the `x = Min.X, Min.X + 2, ...` below
`Max.X`. -/
def columns (img : Image) : Nat := ((img.Bounds.Dx + 1) / 2).toNat

/-- The number of iterations of the row loop: the `y = Min.Y, Min.Y + 3, ...` below
`Max.Y`. -/
def blockRows (img : Image) : Nat := ((img.Bounds.Dy + 2) / 3).toNat

/-- The rows that the row loop builds with the lookup `paletteToColor`. -/
def encodeRows (img : Image) (paletteToColor : ColorMap) : List rowData :=
  (List.range (blockRows img)).map
    (fun (r : Nat) => encodeRow img paletteToColor img.Bounds.Min.X
      (img.Bounds.Min.Y + 3 * (r : Int)) (columns img))

/-- The number that a string reads as in hexadecimal (base 16, most significant digit
first); a character that is not a hexadecimal digit counts as 0. -/
def hexValue (s : String) : Nat :=
  s.toList.foldl
    (fun acc ch =>
      16 * acc +
        (if ch.isDigit then ch.toNat - '0'.toNat
         else if 'A'.toNat ≤ ch.toNat ∧ ch.toNat ≤ 'F'.toNat then ch.toNat - 'A'.toNat + 10
         else if 'a'.toNat ≤ ch.toNat ∧ ch.toNat ≤ 'f'.toNat then ch.toNat - 'a'.toNat + 10
         else 0))
    0

/-- Pure red, opaque. -/
def red : RGBA := ⟨255, 0, 0, 255⟩

/-- Pure blue, opaque. -/
def blue : RGBA := ⟨0, 0, 255, 255⟩

/-- Pure green, opaque. -/
def green : RGBA := ⟨0, 255, 0, 255⟩

/-- A 4×6 image: the left two columns red, the right two blue. -/
def sampleImage : Image :=
  { Bounds := ⟨⟨0, 0⟩, ⟨4, 6⟩⟩,
    At := fun x _ => if x < 2 then red else blue,
    wellFormed := by decide }

/-- A 2×3 image that is red but for its top-left pixel, which is blue. -/
def strayImage : Image :=
  { Bounds := ⟨⟨0, 0⟩, ⟨2, 3⟩⟩,
    At := fun x y => if x = 0 ∧ y = 0 then blue else red,
    wellFormed := by decide }

/-- Lua `string.char` on one argument: the byte `n`, an error (`none`) when `n` is not
in `0..255`. -/
def stringChar (n : Nat) : Option Nat := if n ≤ 255 then some n else none

/-- The Lua function `decode` of the template `cc`: it appends
`string.char(128 + v)` for each argument `v`. -/
def decode (args : List Nat) : Option (List Nat) :=
  args.mapM (fun v => stringChar (128 + v))

/-! ## More sample inputs -/

/-- The chunk of zeros and ones whose pixel `i` (for `i` in 0..4) is bit `i` of `p`, and
whose pixel 5 is zero. -/
def patternChunk (p : Nat) : List Nat :=
  [p % 2, p / 2 % 2, p / 4 % 2, p / 8 % 2, p / 16 % 2, 0]
/-- A 3×4 image, red inside its bounds and the zero colour outside, as `At` of a Go
`image.RGBA` gives: its width is not a multiple of 2 and its height not one of 3. -/
def oddImage : Image :=
  { Bounds := ⟨⟨0, 0⟩, ⟨3, 4⟩⟩,
    At := fun x y => if 0 ≤ x ∧ x < 3 ∧ 0 ≤ y ∧ y < 4 then red else ⟨0, 0, 0, 0⟩,
    wellFormed := by decide }

/-- The least value of a Go `int` of 64 bits, `-2^63`. -/
def minInt64 : Int := -9223372036854775808

/-- The greatest value of a Go `int` of 64 bits, `2^63 - 1`. -/
def maxInt64 : Int := 9223372036854775807

/-- The value that Go `int` arithmetic of 64 bits gives where the exact result is `n`:
`n` wrapped around into `minInt64..maxInt64` (two's complement). -/
def wrapInt64 (n : Int) : Int :=
  (n + 9223372036854775808) % 18446744073709551616 - 9223372036854775808

/-- The coordinates of the rectangle are values of a Go `int` of 64 bits. -/
def Rectangle.inInt64 (r : Rectangle) : Prop :=
  minInt64 ≤ r.Min.X ∧ r.Max.X ≤ maxInt64 ∧ minInt64 ≤ r.Min.Y ∧ r.Max.Y ≤ maxInt64

instance (r : Rectangle) : Decidable r.inInt64 := by
  unfold Rectangle.inInt64
  infer_instance

/-- The two inner loops over `dy` and `dx` of `GenerateCode`, with `x+dx` and `y+dy`
computed in 64-bit `int` arithmetic. -/
def buildChunkInt64 (img : Image) (paletteToColor : ColorMap) (x y : Int) : List Nat :=
  (List.range 3).foldl
    (fun chunk dy =>
      (List.range 2).foldl
        (fun chunk dx =>
          chunk ++ [paletteToColor.get (img.At (wrapInt64 (x + dx)) (wrapInt64 (y + dy)))])
        chunk)
    []

/-- The loop `for x := ...; x < img.Bounds().Max.X; x += 2` of `GenerateCode` with
`x += 2` in 64-bit `int` arithmetic, run for at most `fuel` iterations: `none` when the
loop has not ended by then. -/
def colLoopInt64 (img : Image) (paletteToColor : ColorMap) (y : Int) :
    Nat → Int → rowData → Option (Except Failure rowData)
  | 0, _, _ => none
  | fuel + 1, x, row =>
    if x < img.Bounds.Max.X then
      match chunkToByte (buildChunkInt64 img paletteToColor x y) with
      | none => some (.error (.panic "index out of range"))
      | some (b, textColor, bgColor) =>
        colLoopInt64 img paletteToColor y fuel (wrapInt64 (x + 2))
          { Text := row.Text ++ [b],
            TextColor := row.TextColor ++ [textColor],
            BgColor := row.BgColor ++ [bgColor] }
    else
      some (.ok row)

/-- The loop `for y := ...; y < img.Bounds().Max.Y; y += 3` of `GenerateCode` with
`y += 3` in 64-bit `int` arithmetic, run for at most `fuel` iterations, each column
loop for at most `colFuel`: `none` when a loop has not ended by then. -/
def rowLoopInt64 (img : Image) (paletteToColor : ColorMap) (colFuel : Nat) :
    Nat → Int → List rowData → Option (Except Failure (List rowData))
  | 0, _, _ => none
  | fuel + 1, y, rows =>
    if y < img.Bounds.Max.Y then
      match colLoopInt64 img paletteToColor y colFuel img.Bounds.Min.X ⟨[], [], []⟩ with
      | none => none
      | some (.error e) => some (.error e)
      | some (.ok row) =>
        rowLoopInt64 img paletteToColor colFuel fuel (wrapInt64 (y + 3)) (rows ++ [row])
    else
      some (.ok rows)

/-- Go `GenerateCode` with every `int` operation in 64-bit arithmetic (the loop
counters, the pixel coordinates, `Dx()` and `Dy()`), each loop run for at most `fuel`
iterations: `none` when a loop has not ended by then.  As in `GenerateCode`, `palette`
is the value of `GetPalette(img)` and the result is the data passed to the template. -/
def GenerateCodeInt64 (fuel : Nat) (palette : List RGBA) (img : Image) :
    Option (Except Failure templateData) :=
  if palette.length > 16 then
    some (.error paletteTooLarge)
  else
    match paletteLoop palette 0 ColorMap.empty with
    | .error e => some (.error e)
    | .ok paletteToColor =>
      match rowLoopInt64 img paletteToColor fuel fuel img.Bounds.Min.Y [] with
      | none => none
      | some (.error e) => some (.error e)
      | some (.ok rows) =>
        some (.ok { Rows := rows,
                    Palette := palette,
                    Width := (wrapInt64 (img.Bounds.Max.X - img.Bounds.Min.X)).tdiv 2,
                    Height := (wrapInt64 (img.Bounds.Max.Y - img.Bounds.Min.Y)).tdiv 3 })

/-- A 1×3 image at the right edge of the `int` range, as
`image.NewRGBA(image.Rect(MaxInt64-1, 0, MaxInt64, 3))` filled with red: red inside its
bounds and the zero colour outside. -/
def edgeImage : Image :=
  { Bounds := ⟨⟨9223372036854775806, 0⟩, ⟨9223372036854775807, 3⟩⟩,
    At := fun x y =>
      if 9223372036854775806 ≤ x ∧ x < 9223372036854775807 ∧ 0 ≤ y ∧ y < 3 then red
      else ⟨0, 0, 0, 0⟩,
    wellFormed := by decide }

/-! ## Lemmas on `chunkToByte` -/

/-- A list of length six is a list of six elements. -/
theorem length_six {α : Type} (l : List α) (h : l.length = 6) :
    ∃ c0 c1 c2 c3 c4 c5, l = [c0, c1, c2, c3, c4, c5] := by
  match l, h with
  | [c0, c1, c2, c3, c4, c5], _ => exact ⟨c0, c1, c2, c3, c4, c5, rfl⟩

/-- The result of `chunkToByte` on six bytes, in closed form. -/
theorem chunkToByte_six (c0 c1 c2 c3 c4 c5 : Nat) :
    chunkToByte [c0, c1, c2, c3, c4, c5] =
      some ((if c0 ≠ c5 then 1 else 0) + (if c1 ≠ c5 then 2 else 0) +
            (if c2 ≠ c5 then 4 else 0) + (if c3 ≠ c5 then 8 else 0) +
            (if c4 ≠ c5 then 16 else 0),
            (let tc := if c4 ≠ c5 then c4 else if c3 ≠ c5 then c3 else if c2 ≠ c5 then c2
                       else if c1 ≠ c5 then c1 else if c0 ≠ c5 then c0 else 0
             if tc = 0 then 48 else tc),
            c5) := by
  by_cases h0 : c0 = c5 <;> by_cases h1 : c1 = c5 <;> by_cases h2 : c2 = c5 <;>
  by_cases h3 : c3 = c5 <;> by_cases h4 : c4 = c5 <;>
  simp [chunkToByte, chunkStep, List.range, List.range.loop, List.foldlM, h0, h1, h2, h3, h4]

/-- A ColorIndex is not the zero byte. -/
theorem ColorIndex.ne_zero {c : Nat} (h : ColorIndex c) : c ≠ 0 := by
  rintro rfl
  revert h
  decide

/-! ## Theorems on `chunkToByte` -/

/-- C1: for every chunk of six bytes, `chunkToByte` returns a pattern whose bit `i`
(for `i` in 0..5) is 1 exactly when `chunk[i]` differs from `chunk[5]`; equivalently the
pattern is the sum of `2^i` over the `i` with `chunk[i] ≠ chunk[5]`. -/
theorem chunkToByte_pattern_bits (chunk : List Nat) (h : chunk.length = 6) :
    ∃ b textColor bgColor, chunkToByte chunk = some (b, textColor, bgColor) ∧
      (∀ i, i < 6 → (b.testBit i = true ↔ chunk.getD i 0 ≠ chunk.getD 5 0)) ∧
      b = ∑ i in Finset.range 6, if chunk.getD i 0 ≠ chunk.getD 5 0 then 2 ^ i else 0 := by
  obtain ⟨c0, c1, c2, c3, c4, c5, rfl⟩ := length_six chunk h
  refine ⟨_, _, _, chunkToByte_six c0 c1 c2 c3 c4 c5, ?_, ?_⟩
  · intro i hi
    by_cases h0 : c0 = c5 <;> by_cases h1 : c1 = c5 <;> by_cases h2 : c2 = c5 <;>
    by_cases h3 : c3 = c5 <;> by_cases h4 : c4 = c5 <;>
    interval_cases i <;> simp [h0, h1, h2, h3, h4, Nat.testBit]
  · simp [Finset.sum_range_succ]

/-- Witness of C1: the chunk `[A,A,A,A,A,B]` with `A = '0'`, `B = '1'` has length six,
and its pattern has bits 0..4 set, which is 31. -/
theorem chunkToByte_pattern_bits_witness :
    [48, 48, 48, 48, 48, 49].length = 6 ∧
    chunkToByte [48, 48, 48, 48, 48, 49] = some (31, 48, 49) ∧
    ∃ b textColor bgColor, chunkToByte [48, 48, 48, 48, 48, 49] = some (b, textColor, bgColor) ∧
      (∀ i, i < 6 → (b.testBit i = true ↔
        [48, 48, 48, 48, 48, 49].getD i 0 ≠ [48, 48, 48, 48, 48, 49].getD 5 0)) ∧
      b = ∑ i in Finset.range 6,
        if [48, 48, 48, 48, 48, 49].getD i 0 ≠ [48, 48, 48, 48, 48, 49].getD 5 0
        then 2 ^ i else 0 :=
  ⟨by decide, by decide, chunkToByte_pattern_bits [48, 48, 48, 48, 48, 49] (by decide)⟩

/-- C2: for every cell of six ColorIndex characters and every index `j` in 0..5 that is
the largest one with `chunk[j] ≠ chunk[5]`, the foreground returned by `chunkToByte` is
`chunk[j]`. -/
theorem chunkToByte_foreground_last_differing (chunk : List Nat) (h : chunk.length = 6)
    (hcodes : ∀ c ∈ chunk, ColorIndex c) (j : Nat) (hj : j < 6)
    (hdiff : chunk.getD j 0 ≠ chunk.getD 5 0)
    (hlast : ∀ k, j < k → k < 6 → chunk.getD k 0 = chunk.getD 5 0) :
    ∃ b bgColor, chunkToByte chunk = some (b, chunk.getD j 0, bgColor) := by
  obtain ⟨c0, c1, c2, c3, c4, c5, rfl⟩ := length_six chunk h
  have n0 : c0 ≠ 0 := (hcodes c0 (by simp)).ne_zero
  have n1 : c1 ≠ 0 := (hcodes c1 (by simp)).ne_zero
  have n2 : c2 ≠ 0 := (hcodes c2 (by simp)).ne_zero
  have n3 : c3 ≠ 0 := (hcodes c3 (by simp)).ne_zero
  have n4 : c4 ≠ 0 := (hcodes c4 (by simp)).ne_zero
  have e1 := hlast 1
  have e2 := hlast 2
  have e3 := hlast 3
  have e4 := hlast 4
  simp only [chunkToByte_six, Option.some.injEq, Prod.mk.injEq]
  refine ⟨_, c5, rfl, ?_, rfl⟩
  clear hlast hcodes h
  interval_cases j <;> simp at hdiff e1 e2 e3 e4 <;> simp [*]

/-- Witness of C2: the cell `[A,B,A,B,A,B]` with `A = '0'`, `B = '1'`; the last pixel
that differs from pixel 5 is pixel 4, the pattern is 21, the foreground `A` and the
background `B`. -/
theorem chunkToByte_foreground_last_differing_witness :
    [48, 49, 48, 49, 48, 49].length = 6 ∧
    (∀ c ∈ [48, 49, 48, 49, 48, 49], ColorIndex c) ∧
    chunkToByte [48, 49, 48, 49, 48, 49] = some (21, 48, 49) ∧
    ∃ b bgColor, chunkToByte [48, 49, 48, 49, 48, 49] =
      some (b, [48, 49, 48, 49, 48, 49].getD 4 0, bgColor) :=
  ⟨by decide, by decide, by decide,
    chunkToByte_foreground_last_differing [48, 49, 48, 49, 48, 49] (by decide) (by decide) 4
      (by decide) (by decide) (by intro k h1 h2; interval_cases k; rfl)⟩

/-- C3: for every chunk of six bytes, the background returned by `chunkToByte` is
`chunk[5]`, whatever the other five bytes are. -/
theorem chunkToByte_background (chunk : List Nat) (h : chunk.length = 6) :
    ∃ b textColor, chunkToByte chunk = some (b, textColor, chunk.getD 5 0) := by
  obtain ⟨c0, c1, c2, c3, c4, c5, rfl⟩ := length_six chunk h
  exact ⟨_, _, chunkToByte_six c0 c1 c2 c3 c4 c5⟩

/-- Witness of C3: in `[A,A,A,A,A,B]` five of the six pixels are `A`, and the background
is still `B`, the last pixel. -/
theorem chunkToByte_background_witness :
    [48, 48, 48, 48, 48, 49].length = 6 ∧
    ∃ b textColor, chunkToByte [48, 48, 48, 48, 48, 49] =
      some (b, textColor, [48, 48, 48, 48, 48, 49].getD 5 0) :=
  ⟨by decide, chunkToByte_background [48, 48, 48, 48, 48, 49] (by decide)⟩

/-- C4: for a uniform cell, six pixels equal to the same byte `k` (in particular the
same ColorIndex), `chunkToByte` returns pattern 0, foreground `'0'` and background `k`. -/
theorem chunkToByte_uniform (k : Nat) :
    chunkToByte (List.replicate 6 k) = some (0, '0'.toNat, k) := by
  have h := chunkToByte_six k k k k k k
  simpa [List.replicate] using h

/-! ## Lemmas on the loops of `GenerateCode` -/

theorem buildChunk_eq (img : Image) (m : ColorMap) (x y : Int) :
    buildChunk img m x y = blockChunk img m x y := by
  simp [buildChunk, blockChunk, List.range, List.range.loop]

/-- On the chunk of a block `chunkToByte` does not fail. -/
theorem chunkToByte_blockChunk (img : Image) (m : ColorMap) (x y : Int) :
    chunkToByte (blockChunk img m x y) = some (encodeBlock img m x y) := by
  unfold encodeBlock blockChunk
  rw [chunkToByte_six]
  rfl

/-- Mapping over `0, ..., n` is the head at 0 followed by the map over the successors. -/
theorem range_succ_map {α : Type} (f : Nat → α) (n : Nat) :
    (List.range (n + 1)).map f = f 0 :: (List.range n).map (fun k => f (k + 1)) := by
  rw [List.range_succ_eq_map]
  simp [List.map_map, Function.comp_def]

/-- The column loop run from `x` appends the cells of the blocks at `x`, `x + 2`, ...,
when `n` is the number of those below `Max.X`. -/
theorem colLoop_eq (img : Image) (m : ColorMap) (y : Int) (n : Nat) :
    ∀ (x : Int) (row : rowData), img.Bounds.Max.X ≤ x + 2 * n →
      (∀ k : Nat, k < n → x + 2 * k < img.Bounds.Max.X) →
      colLoop img m y x row =
        .ok { Text := row.Text ++ (encodeRow img m x y n).Text,
              TextColor := row.TextColor ++ (encodeRow img m x y n).TextColor,
              BgColor := row.BgColor ++ (encodeRow img m x y n).BgColor } := by
  induction n with
  | zero =>
    intro x row h1 _
    rw [colLoop, if_neg (by simpa using h1)]
    simp [encodeRow]
  | succ n ih =>
    intro x row h1 h2
    have hx : x < img.Bounds.Max.X := by simpa using h2 0 (Nat.succ_pos n)
    rw [colLoop, if_pos hx, buildChunk_eq, chunkToByte_blockChunk]
    simp only []
    rw [ih (x + 2) _ (by push_cast at h1; omega)
      (fun k hk => by have := h2 (k + 1) (by omega); push_cast at this; omega)]
    simp only [encodeRow, range_succ_map, List.append_assoc, List.singleton_append]
    simp [add_assoc, mul_add, add_comm, add_left_comm]

/-- The column loop of a row, run from `Min.X` with the empty row. -/
theorem colLoop_row (img : Image) (m : ColorMap) (y : Int) :
    colLoop img m y img.Bounds.Min.X ⟨[], [], []⟩ =
      .ok (encodeRow img m img.Bounds.Min.X y (columns img)) := by
  have hw := img.wellFormed.1
  rw [colLoop_eq img m y (columns img)]
  · simp
  · unfold columns Rectangle.Dx; omega
  · intro k hk
    unfold columns Rectangle.Dx at hk
    omega

/-- The row loop run from `y` appends the rows of the blocks at `y`, `y + 3`, ...,
when `n` is the number of those below `Max.Y`. -/
theorem rowLoop_eq (img : Image) (m : ColorMap) (n : Nat) :
    ∀ (y : Int) (rows : List rowData), img.Bounds.Max.Y ≤ y + 3 * n →
      (∀ k : Nat, k < n → y + 3 * k < img.Bounds.Max.Y) →
      rowLoop img m y rows =
        .ok (rows ++ (List.range n).map
          (fun (r : Nat) => encodeRow img m img.Bounds.Min.X (y + 3 * (r : Int)) (columns img))) := by
  induction n with
  | zero =>
    intro y rows h1 _
    rw [rowLoop, if_neg (by simpa using h1)]
    simp
  | succ n ih =>
    intro y rows h1 h2
    have hy : y < img.Bounds.Max.Y := by simpa using h2 0 (Nat.succ_pos n)
    rw [rowLoop, if_pos hy, colLoop_row]
    simp only []
    rw [ih (y + 3) _ (by push_cast at h1; omega)
      (fun k hk => by have := h2 (k + 1) (by omega); push_cast at this; omega)]
    simp only [range_succ_map, List.append_assoc, List.singleton_append]
    simp [add_assoc, mul_add, add_comm, add_left_comm]

/-- The row loop of `GenerateCode`, run from `Min.Y` with no rows. -/
theorem rowLoop_rows (img : Image) (m : ColorMap) :
    rowLoop img m img.Bounds.Min.Y [] = .ok (encodeRows img m) := by
  have hw := img.wellFormed.2
  rw [rowLoop_eq img m (blockRows img)]
  · simp [encodeRows]
  · unfold blockRows Rectangle.Dy; omega
  · intro k hk
    unfold blockRows Rectangle.Dy at hk
    omega

/-- Every position below 16 of `colorsCodes` holds a byte. -/
theorem colorsCodesAt_lt (i : Nat) (h : i < 16) : ∃ code, colorsCodesAt i = some code := by
  have hall : ∀ k, k < 16 → (colorsCodesAt k).isSome = true := by decide
  exact Option.isSome_iff_exists.mp (hall i h)

/-- The bytes of `colorsCodes` are pairwise different. -/
theorem colorsCodesAt_inj : ∀ i, i < 16 → ∀ j, j < 16 →
    colorsCodesAt i = colorsCodesAt j → i = j := by
  decide

/-- The palette loop started at position `i` succeeds when the positions stay below 16;
it leaves the colours outside the palette as they were, and when the palette has no
repeated colour it maps the colour at position `k` to `colorsCodes[i + k]`. -/
theorem paletteLoop_spec (palette : List RGBA) :
    ∀ (i : Nat) (m : ColorMap), i + palette.length ≤ 16 →
      ∃ m', paletteLoop palette i m = .ok m' ∧
        (∀ c, c ∉ palette → m' c = m c) ∧
        (palette.Nodup → ∀ k (hk : k < palette.length),
          m' (palette.get ⟨k, hk⟩) = colorsCodesAt (i + k)) := by
  induction palette with
  | nil =>
    intro i m _
    exact ⟨m, rfl, fun _ _ => rfl, fun _ k hk => absurd hk (Nat.not_lt_zero k)⟩
  | cons col rest ih =>
    intro i m h
    simp only [List.length_cons] at h
    obtain ⟨code, hcode⟩ := colorsCodesAt_lt i (by omega)
    obtain ⟨m', h1, h2, h3⟩ := ih (i + 1) (m.set col code) (by omega)
    refine ⟨m', ?_, ?_, ?_⟩
    · simp only [paletteLoop, hcode]
      exact h1
    · intro c hc
      rw [List.mem_cons, not_or] at hc
      rw [h2 c hc.2]
      simp [ColorMap.set, hc.1]
    · intro hnd k hk
      rw [List.nodup_cons] at hnd
      cases k with
      | zero =>
        simp only [List.get_eq_getElem, List.getElem_cons_zero, Nat.add_zero]
        rw [h2 col hnd.1, hcode]
        simp [ColorMap.set]
      | succ k =>
        have := h3 hnd.2 k (by simpa using hk)
        simp only [List.get_eq_getElem, List.getElem_cons_succ] at this ⊢
        rw [this]
        congr 1
        omega

/-- The result of `GenerateCode` for a palette of at most 16 colours, in closed form. -/
theorem GenerateCode_eq (palette : List RGBA) (img : Image) (hp : palette.length ≤ 16) :
    ∃ m, paletteLoop palette 0 ColorMap.empty = .ok m ∧
      GenerateCode palette img =
        .ok { Rows := encodeRows img m,
              Palette := palette,
              Width := img.Bounds.Dx.tdiv 2,
              Height := img.Bounds.Dy.tdiv 3 } := by
  obtain ⟨m, hm, -, -⟩ := paletteLoop_spec palette 0 ColorMap.empty (by omega)
  refine ⟨m, hm, ?_⟩
  simp only [GenerateCode, hm, rowLoop_rows]
  rw [if_neg (by omega)]

/-- There are as many rows as iterations of the row loop. -/
theorem encodeRows_length (img : Image) (m : ColorMap) :
    (encodeRows img m).length = blockRows img := by
  simp [encodeRows]

/-- Row `r` is the row of the blocks whose top pixel row is `Min.Y + 3 * r`. -/
theorem encodeRows_getElem? (img : Image) (m : ColorMap) (r : Nat) (hr : r < blockRows img) :
    (encodeRows img m)[r]? =
      some (encodeRow img m img.Bounds.Min.X (img.Bounds.Min.Y + 3 * (r : Int)) (columns img)) := by
  simp [encodeRows, List.getElem?_map, List.getElem?_range hr]

/-- Every row built holds `columns img` cells. -/
theorem mem_encodeRows (img : Image) (m : ColorMap) (row : rowData)
    (h : row ∈ encodeRows img m) :
    ∃ y, row = encodeRow img m img.Bounds.Min.X y (columns img) := by
  simp only [encodeRows, List.mem_map] at h
  obtain ⟨r, -, hr⟩ := h
  exact ⟨_, hr.symm⟩

/-- For an even width the column loop runs `width / 2` times. -/
theorem columns_of_even (img : Image) (hw : img.Bounds.Dx % 2 = 0) :
    (columns img : Int) = img.Bounds.Dx / 2 := by
  have h := img.wellFormed.1
  unfold columns
  unfold Rectangle.Dx at hw ⊢
  omega

/-- For a height divisible by 3 the row loop runs `height / 3` times. -/
theorem blockRows_of_mul_three (img : Image) (hh : img.Bounds.Dy % 3 = 0) :
    (blockRows img : Int) = img.Bounds.Dy / 3 := by
  have h := img.wellFormed.2
  unfold blockRows
  unfold Rectangle.Dy at hh ⊢
  omega

/-! ## Theorems on `GenerateCode` and `colorToHex` -/

/-- C5: for every image with a palette of at most 16 colours, width divisible by 2 and
height divisible by 3, `GenerateCode` succeeds, its row loop produces exactly `height/3`
rows, and in every row the buffers `Text`, `TextColor` and `BgColor` each have length
`width/2`. -/
theorem GenerateCode_row_dimensions (palette : List RGBA) (img : Image)
    (hp : palette.length ≤ 16) (hw : img.Bounds.Dx % 2 = 0) (hh : img.Bounds.Dy % 3 = 0) :
    ∃ d paletteToColor, GenerateCode palette img = .ok d ∧
      paletteLoop palette 0 ColorMap.empty = .ok paletteToColor ∧
      rowLoop img paletteToColor img.Bounds.Min.Y [] = .ok d.Rows ∧
      (d.Rows.length : Int) = img.Bounds.Dy / 3 ∧
      ∀ row ∈ d.Rows, (row.Text.length : Int) = img.Bounds.Dx / 2 ∧
        (row.TextColor.length : Int) = img.Bounds.Dx / 2 ∧
        (row.BgColor.length : Int) = img.Bounds.Dx / 2 := by
  obtain ⟨m, hm, hg⟩ := GenerateCode_eq palette img hp
  refine ⟨_, m, hg, hm, rowLoop_rows img m, ?_, ?_⟩
  · simp only [encodeRows_length]
    exact blockRows_of_mul_three img hh
  · intro row hrow
    obtain ⟨y, rfl⟩ := mem_encodeRows img m row hrow
    simp only [encodeRow, List.length_map, List.length_range]
    exact ⟨columns_of_even img hw, columns_of_even img hw, columns_of_even img hw⟩

/-- Witness of C5: the 4×6 image `sampleImage` with the palette `[red, blue]`. -/
theorem GenerateCode_row_dimensions_witness :
    [red, blue].length ≤ 16 ∧ sampleImage.Bounds.Dx % 2 = 0 ∧ sampleImage.Bounds.Dy % 3 = 0 ∧
    ∃ d paletteToColor, GenerateCode [red, blue] sampleImage = .ok d ∧
      paletteLoop [red, blue] 0 ColorMap.empty = .ok paletteToColor ∧
      rowLoop sampleImage paletteToColor sampleImage.Bounds.Min.Y [] = .ok d.Rows ∧
      (d.Rows.length : Int) = sampleImage.Bounds.Dy / 3 ∧
      ∀ row ∈ d.Rows, (row.Text.length : Int) = sampleImage.Bounds.Dx / 2 ∧
        (row.TextColor.length : Int) = sampleImage.Bounds.Dx / 2 ∧
        (row.BgColor.length : Int) = sampleImage.Bounds.Dx / 2 :=
  ⟨by decide, by decide, by decide,
    GenerateCode_row_dimensions [red, blue] sampleImage (by decide) (by decide) (by decide)⟩

/-- C6: for every valid image (palette of at most 16 colours, width divisible by 2,
height divisible by 3), every row `r < height/3` and every column `k < width/2`, the
triple `(Text[k], TextColor[k], BgColor[k])` of row `r` is `chunkToByte` of the six
looked-up indices of the pixels at `(Min.X + 2k + dx, Min.Y + 3r + dy)` in the order
`(dy, dx) = (0,0), (0,1), (1,0), (1,1), (2,0), (2,1)`. -/
theorem GenerateCode_cell (palette : List RGBA) (img : Image)
    (hp : palette.length ≤ 16) (hw : img.Bounds.Dx % 2 = 0) (hh : img.Bounds.Dy % 3 = 0) :
    ∃ d paletteToColor, GenerateCode palette img = .ok d ∧
      paletteLoop palette 0 ColorMap.empty = .ok paletteToColor ∧
      ∀ (r k : Nat), (r : Int) < img.Bounds.Dy / 3 → (k : Int) < img.Bounds.Dx / 2 →
        ∃ row b textColor bgColor, d.Rows[r]? = some row ∧
          row.Text[k]? = some b ∧ row.TextColor[k]? = some textColor ∧
          row.BgColor[k]? = some bgColor ∧
          chunkToByte
            [paletteToColor.get (img.At (img.Bounds.Min.X + 2 * k) (img.Bounds.Min.Y + 3 * r)),
             paletteToColor.get (img.At (img.Bounds.Min.X + 2 * k + 1) (img.Bounds.Min.Y + 3 * r)),
             paletteToColor.get (img.At (img.Bounds.Min.X + 2 * k) (img.Bounds.Min.Y + 3 * r + 1)),
             paletteToColor.get (img.At (img.Bounds.Min.X + 2 * k + 1) (img.Bounds.Min.Y + 3 * r + 1)),
             paletteToColor.get (img.At (img.Bounds.Min.X + 2 * k) (img.Bounds.Min.Y + 3 * r + 2)),
             paletteToColor.get (img.At (img.Bounds.Min.X + 2 * k + 1) (img.Bounds.Min.Y + 3 * r + 2))]
            = some (b, textColor, bgColor) := by
  obtain ⟨m, hm, hg⟩ := GenerateCode_eq palette img hp
  refine ⟨_, m, hg, hm, ?_⟩
  intro r k hr hk
  have hr' : r < blockRows img := by
    have := blockRows_of_mul_three img hh
    omega
  have hk' : k < columns img := by
    have := columns_of_even img hw
    omega
  refine ⟨_, (encodeBlock img m (img.Bounds.Min.X + 2 * k) (img.Bounds.Min.Y + 3 * r)).1,
    (encodeBlock img m (img.Bounds.Min.X + 2 * k) (img.Bounds.Min.Y + 3 * r)).2.1,
    (encodeBlock img m (img.Bounds.Min.X + 2 * k) (img.Bounds.Min.Y + 3 * r)).2.2,
    encodeRows_getElem? img m r hr', ?_, ?_, ?_, ?_⟩
  · simp only [encodeRow, List.getElem?_map, List.getElem?_range hk', Option.map_some']
  · simp only [encodeRow, List.getElem?_map, List.getElem?_range hk', Option.map_some']
  · simp only [encodeRow, List.getElem?_map, List.getElem?_range hk', Option.map_some']
  · exact chunkToByte_blockChunk img m _ _

/-- Witness of C6: the 4×6 image `sampleImage` with the palette `[red, blue]`. -/
theorem GenerateCode_cell_witness :
    [red, blue].length ≤ 16 ∧ sampleImage.Bounds.Dx % 2 = 0 ∧ sampleImage.Bounds.Dy % 3 = 0 ∧
    ∃ d paletteToColor, GenerateCode [red, blue] sampleImage = .ok d ∧
      paletteLoop [red, blue] 0 ColorMap.empty = .ok paletteToColor ∧
      ∀ (r k : Nat), (r : Int) < sampleImage.Bounds.Dy / 3 →
        (k : Int) < sampleImage.Bounds.Dx / 2 →
        ∃ row b textColor bgColor, d.Rows[r]? = some row ∧
          row.Text[k]? = some b ∧ row.TextColor[k]? = some textColor ∧
          row.BgColor[k]? = some bgColor ∧
          chunkToByte
            [paletteToColor.get (sampleImage.At (sampleImage.Bounds.Min.X + 2 * k)
               (sampleImage.Bounds.Min.Y + 3 * r)),
             paletteToColor.get (sampleImage.At (sampleImage.Bounds.Min.X + 2 * k + 1)
               (sampleImage.Bounds.Min.Y + 3 * r)),
             paletteToColor.get (sampleImage.At (sampleImage.Bounds.Min.X + 2 * k)
               (sampleImage.Bounds.Min.Y + 3 * r + 1)),
             paletteToColor.get (sampleImage.At (sampleImage.Bounds.Min.X + 2 * k + 1)
               (sampleImage.Bounds.Min.Y + 3 * r + 1)),
             paletteToColor.get (sampleImage.At (sampleImage.Bounds.Min.X + 2 * k)
               (sampleImage.Bounds.Min.Y + 3 * r + 2)),
             paletteToColor.get (sampleImage.At (sampleImage.Bounds.Min.X + 2 * k + 1)
               (sampleImage.Bounds.Min.Y + 3 * r + 2))]
            = some (b, textColor, bgColor) :=
  ⟨by decide, by decide, by decide,
    GenerateCode_cell [red, blue] sampleImage (by decide) (by decide) (by decide)⟩

/-- C9: for every palette of `n ≤ 16` pairwise distinct colours, the lookup built by
`GenerateCode` (a function of the palette alone) maps the colour at position `i` to the
`i`-th character of `colorsCodes` for every `i < n`, is injective on the colours of the
palette, and holds no other colour. -/
theorem paletteLoop_index_assignment (palette : List RGBA)
    (hn : palette.length ≤ 16) (hd : palette.Nodup) :
    ∃ paletteToColor, paletteLoop palette 0 ColorMap.empty = .ok paletteToColor ∧
      (∀ i (hi : i < palette.length),
        ∃ ch, colorsCodes.toList[i]? = some ch ∧
          paletteToColor (palette.get ⟨i, hi⟩) = some ch.toNat ∧
          paletteToColor.get (palette.get ⟨i, hi⟩) = ch.toNat) ∧
      (∀ c1 ∈ palette, ∀ c2 ∈ palette, paletteToColor.get c1 = paletteToColor.get c2 → c1 = c2) ∧
      (∀ c, c ∉ palette → paletteToColor c = none) := by
  obtain ⟨m, hm, hout, hidx⟩ := paletteLoop_spec palette 0 ColorMap.empty (by omega)
  have hidx' : ∀ i (hi : i < palette.length), m (palette.get ⟨i, hi⟩) = colorsCodesAt i := by
    intro i hi
    simpa using hidx hd i hi
  refine ⟨m, hm, ?_, ?_, fun c hc => hout c hc⟩
  · intro i hi
    obtain ⟨code, hcode⟩ := colorsCodesAt_lt i (by omega)
    have h1 := hidx' i hi
    have h2 : colorsCodesAt i = (colorsCodes.toList[i]?).map Char.toNat := rfl
    cases hch : colorsCodes.toList[i]? with
    | none =>
      rw [h2, hch] at hcode
      cases hcode
    | some ch =>
      rw [h2, hch] at h1
      refine ⟨ch, rfl, h1, ?_⟩
      simp only [ColorMap.get]
      rw [h1]
      rfl
  · intro c1 h1 c2 h2 heq
    obtain ⟨i, hi, rfl⟩ := List.getElem_of_mem h1
    obtain ⟨j, hj, rfl⟩ := List.getElem_of_mem h2
    have e1 := hidx' i hi
    have e2 := hidx' j hj
    simp only [List.get_eq_getElem] at e1 e2
    obtain ⟨a, ha⟩ := colorsCodesAt_lt i (by omega)
    obtain ⟨b, hb⟩ := colorsCodesAt_lt j (by omega)
    have hab : a = b := by
      simpa [ColorMap.get, e1, e2, ha, hb] using heq
    have hij : i = j := colorsCodesAt_inj i (by omega) j (by omega) (by rw [ha, hb, hab])
    subst hij
    rfl

/-- Witness of C9: the palette `[red, green, blue]` gets the indices `'0'`, `'1'`, `'2'`. -/
theorem paletteLoop_index_assignment_witness :
    [red, green, blue].length ≤ 16 ∧ [red, green, blue].Nodup ∧
    (∃ m, paletteLoop [red, green, blue] 0 ColorMap.empty = .ok m ∧
      m.get red = '0'.toNat ∧ m.get green = '1'.toNat ∧ m.get blue = '2'.toNat) ∧
    ∃ paletteToColor, paletteLoop [red, green, blue] 0 ColorMap.empty = .ok paletteToColor ∧
      (∀ i (hi : i < [red, green, blue].length),
        ∃ ch, colorsCodes.toList[i]? = some ch ∧
          paletteToColor ([red, green, blue].get ⟨i, hi⟩) = some ch.toNat ∧
          paletteToColor.get ([red, green, blue].get ⟨i, hi⟩) = ch.toNat) ∧
      (∀ c1 ∈ [red, green, blue], ∀ c2 ∈ [red, green, blue],
        paletteToColor.get c1 = paletteToColor.get c2 → c1 = c2) ∧
      (∀ c, c ∉ [red, green, blue] → paletteToColor c = none) :=
  ⟨by decide, by decide, ⟨_, rfl, by decide, by decide, by decide⟩,
    paletteLoop_index_assignment [red, green, blue] (by decide) (by decide)⟩

/-- C10: `colorToHex` of pure red, `RGBA{255, 0, 0, 255}`, is the four-digit string
`FF00`, not the six-digit `FF0000`: `%X` does not pad a channel below 16 to two digits.
Read as a hexadecimal number it is 65280, not `65536 * 255 + 256 * 0 + 0 = 16711680`. -/
theorem colorToHex_red :
    colorToHex ⟨255, 0, 0, 255⟩ = "FF00" ∧
    (colorToHex ⟨255, 0, 0, 255⟩).length = 4 ∧
    hexValue (colorToHex ⟨255, 0, 0, 255⟩) = 65280 ∧
    hexValue (colorToHex ⟨255, 0, 0, 255⟩) ≠ 65536 * 255 + 256 * 0 + 0 := by
  decide

/-! ## Further lemmas on `chunkToByte` -/

/-- Bit `i` of the closed-form pattern is set exactly when pixel `i` differs from
pixel 5. -/
theorem pattern_six_testBit (c0 c1 c2 c3 c4 c5 : Nat) (i : Nat) (hi : i < 6) :
    (((if c0 ≠ c5 then 1 else 0) + (if c1 ≠ c5 then 2 else 0) +
      (if c2 ≠ c5 then 4 else 0) + (if c3 ≠ c5 then 8 else 0) +
      (if c4 ≠ c5 then 16 else 0) : Nat).testBit i = true) ↔
      [c0, c1, c2, c3, c4, c5].getD i 0 ≠ c5 := by
  by_cases h0 : c0 = c5 <;> by_cases h1 : c1 = c5 <;> by_cases h2 : c2 = c5 <;>
  by_cases h3 : c3 = c5 <;> by_cases h4 : c4 = c5 <;>
  interval_cases i <;> simp [h0, h1, h2, h3, h4, Nat.testBit]

/-- The closed-form pattern is below 32. -/
theorem pattern_six_lt (c0 c1 c2 c3 c4 c5 : Nat) :
    ((if c0 ≠ c5 then 1 else 0) + (if c1 ≠ c5 then 2 else 0) +
      (if c2 ≠ c5 then 4 else 0) + (if c3 ≠ c5 then 8 else 0) +
      (if c4 ≠ c5 then 16 else 0) : Nat) < 32 := by
  split_ifs <;> omega

/-! ## Further theorems on `chunkToByte` -/

/-- C14: for every chunk of six bytes, bit 5 of the pattern returned by `chunkToByte`
is 0 and the pattern is at most 31; the character code `128 + pattern` that `decode`
computes lies in `128..159` and `string.char` accepts it.  Every pattern below 32 is
produced by some chunk, so exactly 32 of the 64 six-bit patterns occur. -/
theorem chunkToByte_pattern_le_31 :
    (∀ chunk : List Nat, chunk.length = 6 →
      ∃ b textColor bgColor, chunkToByte chunk = some (b, textColor, bgColor) ∧
        b.testBit 5 = false ∧ b ≤ 31 ∧ 128 ≤ 128 + b ∧ 128 + b ≤ 159 ∧ 128 + b < 256 ∧
        stringChar (128 + b) = some (128 + b) ∧ decode [b] = some [128 + b]) ∧
    (∀ p, p < 32 → (patternChunk p).length = 6 ∧
      chunkToByte (patternChunk p) = some (p, if p = 0 then 48 else 1, 0)) := by
  constructor
  · intro chunk h
    obtain ⟨c0, c1, c2, c3, c4, c5, rfl⟩ := length_six chunk h
    refine ⟨_, _, _, chunkToByte_six c0 c1 c2 c3 c4 c5, ?_⟩
    have hlt := pattern_six_lt c0 c1 c2 c3 c4 c5
    have hbit := pattern_six_testBit c0 c1 c2 c3 c4 c5 5 (by omega)
    refine ⟨?_, by omega, by omega, by omega, by omega, ?_, ?_⟩
    · simpa using hbit
    · simp only [stringChar]
      rw [if_pos (by omega)]
    · simp only [decode, stringChar, List.mapM_cons, List.mapM_nil]
      rw [if_pos (by omega)]
      rfl
  · have hall : ∀ p, p < 32 →
        chunkToByte (patternChunk p) = some (p, if p = 0 then 48 else 1, 0) := by
      decide
    exact fun p hp => ⟨rfl, hall p hp⟩

/-- Witness of C14: the chunk `[A,A,A,A,A,B]` has pattern 31, sent as character 159, and
the pattern 21 is produced by the chunk `[1,0,1,0,1,0]`. -/
theorem chunkToByte_pattern_le_31_witness :
    [48, 48, 48, 48, 48, 49].length = 6 ∧ 21 < 32 ∧
    chunkToByte [48, 48, 48, 48, 48, 49] = some (31, 48, 49) ∧
    decode [31] = some [159] ∧
    (∃ b textColor bgColor,
      chunkToByte [48, 48, 48, 48, 48, 49] = some (b, textColor, bgColor) ∧
        b.testBit 5 = false ∧ b ≤ 31 ∧ 128 ≤ 128 + b ∧ 128 + b ≤ 159 ∧ 128 + b < 256 ∧
        stringChar (128 + b) = some (128 + b) ∧ decode [b] = some [128 + b]) ∧
    (patternChunk 21).length = 6 ∧
    chunkToByte (patternChunk 21) = some (21, if 21 = 0 then 48 else 1, 0) :=
  ⟨by decide, by decide, by decide, by decide,
    chunkToByte_pattern_le_31.1 [48, 48, 48, 48, 48, 49] (by decide),
    chunkToByte_pattern_le_31.2 21 (by decide)⟩
/-- When the pixels that differ from pixel 5 all carry the same non-zero value `x`, and
there is one, the closed-form foreground is `x`. -/
theorem textColor_six_of_same (c0 c1 c2 c3 c4 c5 x : Nat) (hx0 : x ≠ 0) (hx5 : x ≠ c5)
    (hmem : x ∈ [c0, c1, c2, c3, c4, c5])
    (hsame : ∀ y ∈ [c0, c1, c2, c3, c4, c5], y ≠ c5 → y = x) :
    (let tc := if c4 ≠ c5 then c4 else if c3 ≠ c5 then c3 else if c2 ≠ c5 then c2
               else if c1 ≠ c5 then c1 else if c0 ≠ c5 then c0 else 0
     if tc = 0 then 48 else tc) = x := by
  have s0 := hsame c0 (by simp)
  have s1 := hsame c1 (by simp)
  have s2 := hsame c2 (by simp)
  have s3 := hsame c3 (by simp)
  have s4 := hsame c4 (by simp)
  clear hsame
  by_cases h4 : c4 = c5
  · by_cases h3 : c3 = c5
    · by_cases h2 : c2 = c5
      · by_cases h1 : c1 = c5
        · by_cases h0 : c0 = c5
          · exfalso
            simp only [List.mem_cons, List.mem_singleton, List.not_mem_nil, or_false] at hmem
            rcases hmem with e | e | e | e | e | e <;> apply hx5 <;> rw [e] <;> assumption
          · simp [h4, h3, h2, h1, h0, s0 h0, hx0, hx5]
        · simp [h4, h3, h2, h1, s1 h1, hx0, hx5]
      · simp [h4, h3, h2, s2 h2, hx0, hx5]
    · simp [h4, h3, s3 h3, hx0, hx5]
  · simp [h4, s4 h4, hx0, hx5]

/-- C15: for every chunk of six non-zero bytes that holds at most two distinct values,
the result `(b, textColor, bgColor)` of `chunkToByte` decodes back to the chunk: taking
`textColor` where bit `i` of `b` is 1 and `bgColor` where it is 0 gives `chunk[i]`, for
every `i` in 0..5. -/
theorem chunkToByte_two_colour_round_trip (chunk : List Nat) (h : chunk.length = 6)
    (hnz : ∀ c ∈ chunk, c ≠ 0) (htwo : ∃ u v, ∀ c ∈ chunk, c = u ∨ c = v) :
    ∃ b textColor bgColor, chunkToByte chunk = some (b, textColor, bgColor) ∧
      ∀ i, i < 6 → (if b.testBit i = true then textColor else bgColor) = chunk.getD i 0 := by
  obtain ⟨c0, c1, c2, c3, c4, c5, rfl⟩ := length_six chunk h
  obtain ⟨u, v, huv⟩ := htwo
  refine ⟨_, _, _, chunkToByte_six c0 c1 c2 c3 c4 c5, ?_⟩
  intro i hi
  have t5 := huv c5 (by simp)
  -- the pixels that differ from pixel 5 all carry the same value
  have same : ∀ a b : Nat, (a = u ∨ a = v) → (b = u ∨ b = v) → a ≠ c5 → b ≠ c5 → a = b := by
    intro a b ha hb hac hbc
    rcases ha with rfl | rfl <;> rcases hb with rfl | rfl <;> rcases t5 with rfl | rfl <;>
      first | rfl | exact absurd rfl hac | exact absurd rfl hbc
  have hmem : [c0, c1, c2, c3, c4, c5].getD i 0 ∈ [c0, c1, c2, c3, c4, c5] := by
    interval_cases i <;> simp
  have hbit := pattern_six_testBit c0 c1 c2 c3 c4 c5 i hi
  generalize [c0, c1, c2, c3, c4, c5].getD i 0 = ci at hmem hbit ⊢
  by_cases hd : ci = c5
  · rw [if_neg (fun hb => hbit.mp hb hd), hd]
  · rw [if_pos (hbit.mpr hd)]
    exact textColor_six_of_same c0 c1 c2 c3 c4 c5 ci (hnz ci hmem) hd hmem
      (fun y hy hyc => same y ci (huv y hy) (huv ci hmem) hyc hd)

/-- Witness of C15: the cell `[A,B,A,B,A,B]` with `A = '0'`, `B = '1'`. -/
theorem chunkToByte_two_colour_round_trip_witness :
    [48, 49, 48, 49, 48, 49].length = 6 ∧ (∀ c ∈ [48, 49, 48, 49, 48, 49], c ≠ 0) ∧
    (∃ u v, ∀ c ∈ [48, 49, 48, 49, 48, 49], c = u ∨ c = v) ∧
    ∃ b textColor bgColor, chunkToByte [48, 49, 48, 49, 48, 49] = some (b, textColor, bgColor) ∧
      ∀ i, i < 6 → (if b.testBit i = true then textColor else bgColor) =
        [48, 49, 48, 49, 48, 49].getD i 0 :=
  ⟨by decide, by decide, ⟨48, 49, by decide⟩,
    chunkToByte_two_colour_round_trip [48, 49, 48, 49, 48, 49] (by decide) (by decide)
      ⟨48, 49, by decide⟩⟩
/-- The foreground before its normalisation is 0 when no pixel differs from pixel 5,
and otherwise the value of the last pixel that differs. -/
theorem textColor_six_cases (c0 c1 c2 c3 c4 c5 : Nat) :
    ((if c4 ≠ c5 then c4 else if c3 ≠ c5 then c3 else if c2 ≠ c5 then c2
        else if c1 ≠ c5 then c1 else if c0 ≠ c5 then c0 else 0) = 0 ∧
      ∀ i, i < 6 → [c0, c1, c2, c3, c4, c5].getD i 0 = c5) ∨
    ∃ j, j < 6 ∧ [c0, c1, c2, c3, c4, c5].getD j 0 ≠ c5 ∧
      (∀ k, j < k → k < 6 → [c0, c1, c2, c3, c4, c5].getD k 0 = c5) ∧
      (if c4 ≠ c5 then c4 else if c3 ≠ c5 then c3 else if c2 ≠ c5 then c2
        else if c1 ≠ c5 then c1 else if c0 ≠ c5 then c0 else 0) =
        [c0, c1, c2, c3, c4, c5].getD j 0 := by
  by_cases h4 : c4 = c5
  · by_cases h3 : c3 = c5
    · by_cases h2 : c2 = c5
      · by_cases h1 : c1 = c5
        · by_cases h0 : c0 = c5
          · left
            refine ⟨by simp [h0, h1, h2, h3, h4], ?_⟩
            intro i hi
            interval_cases i <;> simp [h0, h1, h2, h3, h4]
          · right
            refine ⟨0, by omega, by simpa using h0, ?_, by simp [h0, h1, h2, h3, h4]⟩
            intro k hk1 hk2
            interval_cases k <;> simp [h1, h2, h3, h4]
        · right
          refine ⟨1, by omega, by simpa using h1, ?_, by simp [h1, h2, h3, h4]⟩
          intro k hk1 hk2
          interval_cases k <;> simp [h2, h3, h4]
      · right
        refine ⟨2, by omega, by simpa using h2, ?_, by simp [h2, h3, h4]⟩
        intro k hk1 hk2
        interval_cases k <;> simp [h3, h4]
    · right
      refine ⟨3, by omega, by simpa using h3, ?_, by simp [h3, h4]⟩
      intro k hk1 hk2
      interval_cases k <;> simp [h4]
  · right
    refine ⟨4, by omega, by simpa using h4, ?_, by simp [h4]⟩
    intro k hk1 hk2
    interval_cases k
    simp

/-- The last position below 6 at which a sequence differs from a value is unique. -/
theorem last_differing_unique (f : Nat → Nat) (c j j' : Nat) (hj' : j' < 6) (hj : j < 6)
    (h1 : f j ≠ c) (h2 : ∀ k, j < k → k < 6 → f k = c)
    (h1' : f j' ≠ c) (h2' : ∀ k, j' < k → k < 6 → f k = c) : j = j' := by
  rcases Nat.lt_trichotomy j j' with hlt | heq | hgt
  · exact absurd (h2 j' hlt hj') h1'
  · exact heq
  · exact absurd (h2' j hgt hj) h1

/-- C16: for every chunk of six bytes the foreground returned by `chunkToByte` is not
the zero byte, and it is the character `'0'` exactly when no pixel differs from
`chunk[5]` or the last pixel that differs from `chunk[5]` has the value 0 or `'0'`. -/
theorem chunkToByte_foreground_nonzero (chunk : List Nat) (h : chunk.length = 6) :
    ∃ b textColor bgColor, chunkToByte chunk = some (b, textColor, bgColor) ∧
      textColor ≠ 0 ∧
      (textColor = '0'.toNat ↔
        (∀ i, i < 6 → chunk.getD i 0 = chunk.getD 5 0) ∨
        ∃ j, j < 6 ∧ chunk.getD j 0 ≠ chunk.getD 5 0 ∧
          (∀ k, j < k → k < 6 → chunk.getD k 0 = chunk.getD 5 0) ∧
          (chunk.getD j 0 = 0 ∨ chunk.getD j 0 = '0'.toNat)) := by
  obtain ⟨c0, c1, c2, c3, c4, c5, rfl⟩ := length_six chunk h
  refine ⟨_, _, _, chunkToByte_six c0 c1 c2 c3 c4 c5, ?_⟩
  have h5 : [c0, c1, c2, c3, c4, c5].getD 5 0 = c5 := rfl
  rw [h5]
  have hcases := textColor_six_cases c0 c1 c2 c3 c4 c5
  simp only []
  generalize (if c4 ≠ c5 then c4 else if c3 ≠ c5 then c3 else if c2 ≠ c5 then c2
        else if c1 ≠ c5 then c1 else if c0 ≠ c5 then c0 else 0) = tc at hcases ⊢
  generalize hf : (fun i => [c0, c1, c2, c3, c4, c5].getD i 0) = f at hcases ⊢
  have hfi : ∀ i, [c0, c1, c2, c3, c4, c5].getD i 0 = f i := fun i => by rw [← hf]
  simp only [hfi] at hcases ⊢
  have h48 : '0'.toNat = 48 := rfl
  rw [h48]
  rcases hcases with ⟨htc, hall⟩ | ⟨j, hj, hne, hlast, htc⟩
  · subst htc
    refine ⟨by simp, ?_⟩
    simp only [if_true, true_iff]
    exact Or.inl hall
  · constructor
    · split_ifs <;> omega
    · constructor
      · intro hfg
        right
        refine ⟨j, hj, hne, hlast, ?_⟩
        rw [← htc]
        by_cases h0 : tc = 0
        · exact Or.inl h0
        · rw [if_neg h0] at hfg
          exact Or.inr hfg
      · rintro (hall | ⟨j', hj', hne', hlast', hval⟩)
        · exact absurd (hall j hj) hne
        · have hjj := last_differing_unique f c5 j j' hj' hj hne hlast hne' hlast'
          subst hjj
          rw [← htc] at hval
          rcases hval with h0 | h0
          · rw [if_pos h0]
          · rw [h0]
            simp
/-- Witness of C16: in `[0,B,B,B,B,B]` the only pixel that differs from pixel 5 is the
zero byte of an unmapped colour; the foreground is reported as `'0'`, and the whole
result is that of `['0',B,B,B,B,B]`. -/
theorem chunkToByte_foreground_nonzero_witness :
    [0, 49, 49, 49, 49, 49].length = 6 ∧
    chunkToByte [0, 49, 49, 49, 49, 49] = some (1, '0'.toNat, 49) ∧
    chunkToByte [0, 49, 49, 49, 49, 49] = chunkToByte [48, 49, 49, 49, 49, 49] ∧
    ∃ b textColor bgColor, chunkToByte [0, 49, 49, 49, 49, 49] = some (b, textColor, bgColor) ∧
      textColor ≠ 0 ∧
      (textColor = '0'.toNat ↔
        (∀ i, i < 6 → [0, 49, 49, 49, 49, 49].getD i 0 = [0, 49, 49, 49, 49, 49].getD 5 0) ∨
        ∃ j, j < 6 ∧ [0, 49, 49, 49, 49, 49].getD j 0 ≠ [0, 49, 49, 49, 49, 49].getD 5 0 ∧
          (∀ k, j < k → k < 6 →
            [0, 49, 49, 49, 49, 49].getD k 0 = [0, 49, 49, 49, 49, 49].getD 5 0) ∧
          ([0, 49, 49, 49, 49, 49].getD j 0 = 0 ∨
            [0, 49, 49, 49, 49, 49].getD j 0 = '0'.toNat)) :=
  ⟨by decide, by decide, by decide,
    chunkToByte_foreground_nonzero [0, 49, 49, 49, 49, 49] (by decide)⟩

/-! ## Further lemmas on `GenerateCode` -/

/-- The reported width and height are the floors of half the width and a third of the
height. -/
theorem GenerateCode_size (palette : List RGBA) (img : Image) (hp : palette.length ≤ 16) :
    ∃ d m, GenerateCode palette img = .ok d ∧ d.Rows = encodeRows img m ∧
      d.Width = img.Bounds.Dx / 2 ∧ d.Height = img.Bounds.Dy / 3 := by
  obtain ⟨m, -, hg⟩ := GenerateCode_eq palette img hp
  have hx : 0 ≤ img.Bounds.Dx := by
    have := img.wellFormed.1
    unfold Rectangle.Dx
    omega
  have hy : 0 ≤ img.Bounds.Dy := by
    have := img.wellFormed.2
    unfold Rectangle.Dy
    omega
  exact ⟨_, m, hg, rfl, Int.tdiv_eq_ediv hx (by decide), Int.tdiv_eq_ediv hy (by decide)⟩

/-- The rows built all have `columns img` entries in each buffer. -/
theorem encodeRows_row_length (img : Image) (m : ColorMap) (row : rowData)
    (h : row ∈ encodeRows img m) :
    row.Text.length = columns img ∧ row.TextColor.length = columns img ∧
      row.BgColor.length = columns img := by
  obtain ⟨y, rfl⟩ := mem_encodeRows img m row h
  simp [encodeRow]

/-- The loops over the integers, for any size: `(h + 2) / 3` rows of `(w + 1) / 2`
cells each are built, the size `(w / 2, h / 3)` is reported; the number of rows is
the reported height iff 3 divides `h`, and every row has the reported width iff 2
divides `w` or there are no rows. -/
theorem GenerateCode_loop_counts (palette : List RGBA) (img : Image)
    (hp : palette.length ≤ 16) :
    ∃ d, GenerateCode palette img = .ok d ∧
      (d.Rows.length : Int) = (img.Bounds.Dy + 2) / 3 ∧
      img.Bounds.Dy ≤ 3 * (d.Rows.length : Int) ∧
      3 * (d.Rows.length : Int) < img.Bounds.Dy + 3 ∧
      (∀ row ∈ d.Rows,
        (row.Text.length : Int) = (img.Bounds.Dx + 1) / 2 ∧
        row.TextColor.length = row.Text.length ∧ row.BgColor.length = row.Text.length ∧
        img.Bounds.Dx ≤ 2 * (row.Text.length : Int) ∧
        2 * (row.Text.length : Int) < img.Bounds.Dx + 2) ∧
      d.Width = img.Bounds.Dx / 2 ∧ d.Height = img.Bounds.Dy / 3 ∧
      ((d.Rows.length : Int) = d.Height ↔ img.Bounds.Dy % 3 = 0) ∧
      ((∀ row ∈ d.Rows, (row.Text.length : Int) = d.Width) ↔
        (img.Bounds.Dx % 2 = 0 ∨ d.Rows = [])) := by
  obtain ⟨d, m, hg, hrows, hw, hh⟩ := GenerateCode_size palette img hp
  have hx : 0 ≤ img.Bounds.Dx := by
    have := img.wellFormed.1
    unfold Rectangle.Dx
    omega
  have hy : 0 ≤ img.Bounds.Dy := by
    have := img.wellFormed.2
    unfold Rectangle.Dy
    omega
  have hlen : d.Rows.length = blockRows img := by rw [hrows, encodeRows_length]
  have hbr : (blockRows img : Int) = (img.Bounds.Dy + 2) / 3 := by
    unfold blockRows
    omega
  have hco : (columns img : Int) = (img.Bounds.Dx + 1) / 2 := by
    unfold columns
    omega
  have hrow : ∀ row ∈ d.Rows, row.Text.length = columns img ∧
      row.TextColor.length = columns img ∧ row.BgColor.length = columns img := by
    intro row hr
    rw [hrows] at hr
    exact encodeRows_row_length img m row hr
  refine ⟨d, hg, by rw [hlen, hbr], by rw [hlen]; omega, by rw [hlen]; omega, ?_, hw, hh,
    ?_, ?_⟩
  · intro row hr
    obtain ⟨e1, e2, e3⟩ := hrow row hr
    rw [e2, e3, e1]
    refine ⟨hco, rfl, rfl, by omega, by omega⟩
  · rw [hlen, hh]
    omega
  · constructor
    · intro hall
      by_cases hnil : d.Rows = []
      · exact Or.inr hnil
      · left
        obtain ⟨row, hr⟩ := List.exists_mem_of_ne_nil _ hnil
        have h1 := hall row hr
        rw [(hrow row hr).1, hw] at h1
        omega
    · rintro (hev | hnil)
      · intro row hr
        rw [(hrow row hr).1, hw]
        omega
      · intro row hr
        rw [hnil] at hr
        cases hr

/-- Inside the range of a 64-bit `int` the arithmetic is exact. -/
theorem wrapInt64_of_range (n : Int) (h1 : minInt64 ≤ n) (h2 : n ≤ maxInt64) :
    wrapInt64 n = n := by
  unfold wrapInt64
  unfold minInt64 at h1
  unfold maxInt64 at h2
  omega

/-- The result of 64-bit arithmetic is a 64-bit value congruent to the exact one. -/
theorem wrapInt64_spec (n : Int) :
    minInt64 ≤ wrapInt64 n ∧ wrapInt64 n ≤ maxInt64 ∧ (wrapInt64 n - n) % 2 = 0 := by
  unfold wrapInt64 minInt64 maxInt64
  omega

/-- The chunk of the block at `(x, y)` in 64-bit arithmetic: six looked-up bytes. -/
theorem buildChunkInt64_eq (img : Image) (m : ColorMap) (x y : Int) :
    buildChunkInt64 img m x y =
      [m.get (img.At (wrapInt64 x) (wrapInt64 y)),
       m.get (img.At (wrapInt64 (x + 1)) (wrapInt64 y)),
       m.get (img.At (wrapInt64 x) (wrapInt64 (y + 1))),
       m.get (img.At (wrapInt64 (x + 1)) (wrapInt64 (y + 1))),
       m.get (img.At (wrapInt64 x) (wrapInt64 (y + 2))),
       m.get (img.At (wrapInt64 (x + 1)) (wrapInt64 (y + 2)))] := by
  simp [buildChunkInt64, List.range, List.range.loop]

/-- On a chunk built in 64-bit arithmetic `chunkToByte` does not fail. -/
theorem chunkToByte_buildChunkInt64 (img : Image) (m : ColorMap) (x y : Int) :
    ∃ cell, chunkToByte (buildChunkInt64 img m x y) = some cell := by
  rw [buildChunkInt64_eq]
  exact ⟨_, chunkToByte_six _ _ _ _ _ _⟩

/-- When the coordinates of the block do not overflow, the chunk built in 64-bit
arithmetic is the chunk of the block. -/
theorem buildChunkInt64_of_range (img : Image) (m : ColorMap) (x y : Int)
    (hx1 : minInt64 ≤ x) (hx2 : x + 1 ≤ maxInt64) (hy1 : minInt64 ≤ y) (hy2 : y + 2 ≤ maxInt64) :
    buildChunkInt64 img m x y = blockChunk img m x y := by
  rw [buildChunkInt64_eq]
  unfold blockChunk
  rw [wrapInt64_of_range x hx1 (by omega), wrapInt64_of_range (x + 1) (by omega) hx2,
    wrapInt64_of_range y hy1 (by omega), wrapInt64_of_range (y + 1) (by omega) (by omega),
    wrapInt64_of_range (y + 2) (by omega) hy2]

/-- The column loop in 64-bit arithmetic, when the counter does not overflow and the
fuel exceeds the number `n` of iterations: the cells of the blocks at `x`, `x + 2`, ...
are appended, as by `colLoop`. -/
theorem colLoopInt64_eq (img : Image) (m : ColorMap) (y : Int)
    (hy1 : minInt64 ≤ y) (hy2 : y + 2 ≤ maxInt64) (n : Nat) :
    ∀ (fuel : Nat) (x : Int) (row : rowData), n < fuel →
      img.Bounds.Max.X ≤ x + 2 * n →
      (∀ k : Nat, k < n → x + 2 * k < img.Bounds.Max.X) →
      minInt64 ≤ x → x + 2 * n ≤ maxInt64 →
      colLoopInt64 img m y fuel x row =
        some (.ok { Text := row.Text ++ (encodeRow img m x y n).Text,
                    TextColor := row.TextColor ++ (encodeRow img m x y n).TextColor,
                    BgColor := row.BgColor ++ (encodeRow img m x y n).BgColor }) := by
  induction n with
  | zero =>
    intro fuel x row hf h1 _ _ _
    obtain ⟨f, rfl⟩ : ∃ f, fuel = f + 1 := ⟨fuel - 1, by omega⟩
    rw [colLoopInt64, if_neg (by simpa using h1)]
    simp [encodeRow]
  | succ n ih =>
    intro fuel x row hf h1 h2 h3 h4
    obtain ⟨f, rfl⟩ : ∃ f, fuel = f + 1 := ⟨fuel - 1, by omega⟩
    have hx : x < img.Bounds.Max.X := by simpa using h2 0 (Nat.succ_pos n)
    push_cast at h1 h4
    rw [colLoopInt64, if_pos hx,
      buildChunkInt64_of_range img m x y h3 (by omega) hy1 hy2, chunkToByte_blockChunk]
    simp only []
    rw [wrapInt64_of_range (x + 2) (by omega) (by omega)]
    rw [ih f (x + 2) _ (by omega) (by omega)
      (fun k hk => by have := h2 (k + 1) (by omega); push_cast at this; omega)
      (by omega) (by omega)]
    simp only [encodeRow, range_succ_map, List.append_assoc, List.singleton_append]
    simp [add_assoc, mul_add, add_comm, add_left_comm]

/-- The column loop run from `Min.X` in 64-bit arithmetic, with enough fuel and no
overflow of the counter. -/
theorem colLoopInt64_row (img : Image) (m : ColorMap) (y : Int) (fuel : Nat)
    (hf : columns img < fuel) (hy1 : minInt64 ≤ y) (hy2 : y + 2 ≤ maxInt64)
    (hx1 : minInt64 ≤ img.Bounds.Min.X)
    (hx2 : img.Bounds.Min.X + 2 * columns img ≤ maxInt64) :
    colLoopInt64 img m y fuel img.Bounds.Min.X ⟨[], [], []⟩ =
      some (.ok (encodeRow img m img.Bounds.Min.X y (columns img))) := by
  have hw := img.wellFormed.1
  rw [colLoopInt64_eq img m y hy1 hy2 (columns img) fuel _ _ hf _ _ hx1 hx2]
  · simp
  · unfold columns Rectangle.Dx; omega
  · intro k hk
    unfold columns Rectangle.Dx at hk
    omega

/-- The row loop in 64-bit arithmetic, when the counters do not overflow and the fuel
exceeds the numbers of iterations: the rows of the blocks at `y`, `y + 3`, ... are
appended, as by `rowLoop`. -/
theorem rowLoopInt64_eq (img : Image) (m : ColorMap) (colFuel : Nat)
    (hcf : columns img < colFuel) (hx1 : minInt64 ≤ img.Bounds.Min.X)
    (hx2 : img.Bounds.Min.X + 2 * columns img ≤ maxInt64) (n : Nat) :
    ∀ (fuel : Nat) (y : Int) (rows : List rowData), n < fuel →
      img.Bounds.Max.Y ≤ y + 3 * n →
      (∀ k : Nat, k < n → y + 3 * k < img.Bounds.Max.Y) →
      minInt64 ≤ y → y + 3 * n ≤ maxInt64 →
      rowLoopInt64 img m colFuel fuel y rows =
        some (.ok (rows ++ (List.range n).map
          (fun (r : Nat) => encodeRow img m img.Bounds.Min.X (y + 3 * (r : Int)) (columns img)))) := by
  induction n with
  | zero =>
    intro fuel y rows hf h1 _ _ _
    obtain ⟨f, rfl⟩ : ∃ f, fuel = f + 1 := ⟨fuel - 1, by omega⟩
    rw [rowLoopInt64, if_neg (by simpa using h1)]
    simp
  | succ n ih =>
    intro fuel y rows hf h1 h2 h3 h4
    obtain ⟨f, rfl⟩ : ∃ f, fuel = f + 1 := ⟨fuel - 1, by omega⟩
    have hy : y < img.Bounds.Max.Y := by simpa using h2 0 (Nat.succ_pos n)
    push_cast at h1 h4
    rw [rowLoopInt64, if_pos hy,
      colLoopInt64_row img m y colFuel hcf h3 (by omega) hx1 hx2]
    simp only []
    rw [wrapInt64_of_range (y + 3) (by omega) (by omega)]
    rw [ih f (y + 3) _ (by omega) (by omega)
      (fun k hk => by have := h2 (k + 1) (by omega); push_cast at this; omega)
      (by omega) (by omega)]
    simp only [range_succ_map, List.append_assoc, List.singleton_append]
    simp [add_assoc, mul_add, add_comm, add_left_comm]

/-- The row loop of `GenerateCode` in 64-bit arithmetic, with enough fuel and no
overflow of the counters, builds the rows that `rowLoop` builds. -/
theorem rowLoopInt64_rows (img : Image) (m : ColorMap) (fuel : Nat)
    (hf : columns img + blockRows img < fuel) (hin : img.Bounds.inInt64)
    (hx : img.Bounds.Min.X + 2 * columns img ≤ maxInt64)
    (hy : img.Bounds.Min.Y + 3 * blockRows img ≤ maxInt64) :
    rowLoopInt64 img m fuel fuel img.Bounds.Min.Y [] = some (.ok (encodeRows img m)) := by
  have hw := img.wellFormed.2
  obtain ⟨i1, i2, i3, i4⟩ := hin
  rw [rowLoopInt64_eq img m fuel (by omega) i1 hx (blockRows img) fuel _ _ (by omega) _ _ i3 hy]
  · simp [encodeRows]
  · unfold blockRows Rectangle.Dy; omega
  · intro k hk
    unfold blockRows Rectangle.Dy at hk
    omega

/-- `GenerateCode` in 64-bit arithmetic, with enough fuel and no overflow of the loop
counters, in closed form: the rows are those of `GenerateCode`. -/
theorem GenerateCodeInt64_eq (palette : List RGBA) (img : Image) (hp : palette.length ≤ 16)
    (hin : img.Bounds.inInt64)
    (hx : img.Bounds.Min.X + 2 * columns img ≤ maxInt64)
    (hy : img.Bounds.Min.Y + 3 * blockRows img ≤ maxInt64) :
    ∃ m, paletteLoop palette 0 ColorMap.empty = .ok m ∧
      ∀ fuel, columns img + blockRows img < fuel →
        GenerateCodeInt64 fuel palette img =
          some (.ok { Rows := encodeRows img m,
                      Palette := palette,
                      Width := (wrapInt64 (img.Bounds.Max.X - img.Bounds.Min.X)).tdiv 2,
                      Height := (wrapInt64 (img.Bounds.Max.Y - img.Bounds.Min.Y)).tdiv 3 }) := by
  obtain ⟨m, hm, -, -⟩ := paletteLoop_spec palette 0 ColorMap.empty (by omega)
  refine ⟨m, hm, ?_⟩
  intro fuel hf
  simp only [GenerateCodeInt64, hm, rowLoopInt64_rows img m fuel hf hin hx hy]
  rw [if_neg (by omega)]

/-- The column loop in 64-bit arithmetic never ends in an error. -/
theorem colLoopInt64_ne_error (img : Image) (m : ColorMap) (y : Int) (fuel : Nat) :
    ∀ (x : Int) (row : rowData) (e : Failure),
      colLoopInt64 img m y fuel x row ≠ some (.error e) := by
  induction fuel with
  | zero =>
    intro x row e
    simp [colLoopInt64]
  | succ f ih =>
    intro x row e
    rw [colLoopInt64]
    split_ifs with hx
    · obtain ⟨cell, hcell⟩ := chunkToByte_buildChunkInt64 img m x y
      rw [hcell]
      exact ih _ _ e
    · simp

/-- The row loop in 64-bit arithmetic never ends in an error. -/
theorem rowLoopInt64_ne_error (img : Image) (m : ColorMap) (colFuel fuel : Nat) :
    ∀ (y : Int) (rows : List rowData) (e : Failure),
      rowLoopInt64 img m colFuel fuel y rows ≠ some (.error e) := by
  induction fuel with
  | zero =>
    intro y rows e
    simp [rowLoopInt64]
  | succ f ih =>
    intro y rows e
    rw [rowLoopInt64]
    split_ifs with hy
    · have hcol := colLoopInt64_ne_error img m y colFuel img.Bounds.Min.X ⟨[], [], []⟩
      cases hc : colLoopInt64 img m y colFuel img.Bounds.Min.X ⟨[], [], []⟩ with
      | none => simp
      | some res =>
        cases res with
        | error e' => exact absurd hc (hcol e')
        | ok row => exact ih _ _ e
    · simp

/-- With a palette of at most 16 colours `GenerateCode` in 64-bit arithmetic never ends
in an error or a panic, whatever the fuel. -/
theorem GenerateCodeInt64_ne_error (palette : List RGBA) (img : Image)
    (hp : palette.length ≤ 16) (fuel : Nat) (e : Failure) :
    GenerateCodeInt64 fuel palette img ≠ some (.error e) := by
  obtain ⟨m, hm, -, -⟩ := paletteLoop_spec palette 0 ColorMap.empty (by omega)
  have hrow := rowLoopInt64_ne_error img m fuel fuel img.Bounds.Min.Y []
  simp only [GenerateCodeInt64, hm]
  rw [if_neg (by omega)]
  cases hr : rowLoopInt64 img m fuel fuel img.Bounds.Min.Y [] with
  | none => simp
  | some res =>
    cases res with
    | error e' => exact absurd hr (hrow e')
    | ok rows => simp

/-- When `Max.X` is the greatest `int` and the counter `x` is even, the column loop in
64-bit arithmetic does not end: `x` stays even, hence below `Max.X`, also after it
wraps around. -/
theorem colLoopInt64_diverges (img : Image) (m : ColorMap) (y : Int)
    (hmax : img.Bounds.Max.X = maxInt64) (fuel : Nat) :
    ∀ (x : Int) (row : rowData), x % 2 = 0 → minInt64 ≤ x → x ≤ maxInt64 →
      colLoopInt64 img m y fuel x row = none := by
  induction fuel with
  | zero =>
    intro x row _ _ _
    rfl
  | succ f ih =>
    intro x row h1 h2 h3
    have hx : x < img.Bounds.Max.X := by
      rw [hmax]
      unfold maxInt64 at h3 ⊢
      omega
    obtain ⟨cell, hcell⟩ := chunkToByte_buildChunkInt64 img m x y
    rw [colLoopInt64, if_pos hx, hcell]
    have hs := wrapInt64_spec (x + 2)
    exact ih _ _ (by omega) hs.1 hs.2.1

/-- The two embeddings agree: when the coordinates are 64-bit values, the width and the
height do not overflow and the loop counters do not overflow, `GenerateCode` in 64-bit
arithmetic returns, with enough fuel, what `GenerateCode` over the integers returns. -/
theorem GenerateCodeInt64_eq_GenerateCode (palette : List RGBA) (img : Image)
    (hin : img.Bounds.inInt64)
    (hw : 0 ≤ wrapInt64 img.Bounds.Dx) (hh : 0 ≤ wrapInt64 img.Bounds.Dy)
    (hx : img.Bounds.Min.X + 2 * columns img ≤ maxInt64)
    (hy : img.Bounds.Min.Y + 3 * blockRows img ≤ maxInt64)
    (fuel : Nat) (hf : columns img + blockRows img < fuel) :
    GenerateCodeInt64 fuel palette img = some (GenerateCode palette img) := by
  by_cases hp : palette.length ≤ 16
  · have hwf := img.wellFormed
    obtain ⟨i1, i2, i3, i4⟩ := hin
    have hwx : wrapInt64 (img.Bounds.Max.X - img.Bounds.Min.X) = img.Bounds.Dx := by
      unfold Rectangle.Dx wrapInt64 at *
      unfold minInt64 at i1
      unfold maxInt64 at i2
      omega
    have hwy : wrapInt64 (img.Bounds.Max.Y - img.Bounds.Min.Y) = img.Bounds.Dy := by
      unfold Rectangle.Dy wrapInt64 at *
      unfold minInt64 at i3
      unfold maxInt64 at i4
      omega
    obtain ⟨m, hm, hg⟩ := GenerateCodeInt64_eq palette img hp ⟨i1, i2, i3, i4⟩ hx hy
    obtain ⟨m', hm', hg'⟩ := GenerateCode_eq palette img hp
    rw [hm] at hm'
    cases hm'
    rw [hg fuel hf, hg', hwx, hwy]
  · simp only [GenerateCodeInt64, GenerateCode]
    rw [if_pos (by omega), if_pos (by omega)]

/-! ## Theorems on `GenerateCode` in 64-bit arithmetic -/

/-- C8, counterexample: two images with a pixel whose colour is absent from the lookup,
on which `GenerateCode` does not fail.  `strayImage` has the blue pixel `(0, 0)` inside
its bounds while the palette is `[red]`: one row with one cell is returned, in which
the blue pixel was looked up as the zero byte and the foreground is reported as `'0'`,
the index of red.  The pixels inside the bounds of `oddImage` are all red, the colour
of its palette `[red]`, and its edge blocks read the pixel `(3, 0)` outside the bounds,
whose colour is absent: two rows of two cells are returned. -/
theorem GenerateCode_absent_colour_counterexample :
    [red].length ≤ 16 ∧
    strayImage.Bounds.Min.X ≤ 0 ∧ 0 < strayImage.Bounds.Max.X ∧
    strayImage.Bounds.Min.Y ≤ 0 ∧ 0 < strayImage.Bounds.Max.Y ∧
    (∃ m, paletteLoop [red] 0 ColorMap.empty = .ok m ∧ m (strayImage.At 0 0) = none ∧
      m (oddImage.At 3 0) = none) ∧
    GenerateCode [red] strayImage = .ok ⟨[⟨[1], [48], [48]⟩], [red], 1, 1⟩ ∧
    (∀ fuel, 3 ≤ fuel →
      GenerateCodeInt64 fuel [red] strayImage = some (.ok ⟨[⟨[1], [48], [48]⟩], [red], 1, 1⟩)) ∧
    (∀ fuel, 5 ≤ fuel →
      GenerateCodeInt64 fuel [red] oddImage =
        some (.ok ⟨[⟨[0, 21], [48, 48], [48, 0]⟩, ⟨[3, 1], [48, 48], [0, 0]⟩], [red], 1, 1⟩)) := by
  have hm : paletteLoop [red] 0 ColorMap.empty = .ok (ColorMap.empty.set red 48) := rfl
  refine ⟨by decide, by decide, by decide, by decide, by decide,
    ⟨_, rfl, by decide, by decide⟩, ?_, ?_, ?_⟩
  · have hrows : encodeRows strayImage (ColorMap.empty.set red 48) = [⟨[1], [48], [48]⟩] := by
      decide
    simp only [GenerateCode, hm, rowLoop_rows, hrows]
    rw [if_neg (by decide)]
    rfl
  · intro fuel hf
    obtain ⟨m, hm', hg⟩ := GenerateCodeInt64_eq [red] strayImage (by decide) (by decide)
      (by decide) (by decide)
    rw [hm] at hm'
    cases hm'
    have hc : columns strayImage + blockRows strayImage = 2 := by decide
    have hrows : encodeRows strayImage (ColorMap.empty.set red 48) = [⟨[1], [48], [48]⟩] := by
      decide
    rw [hg fuel (by omega), hrows]
    rfl
  · intro fuel hf
    obtain ⟨m, hm', hg⟩ := GenerateCodeInt64_eq [red] oddImage (by decide) (by decide)
      (by decide) (by decide)
    rw [hm] at hm'
    cases hm'
    have hc : columns oddImage + blockRows oddImage = 4 := by decide
    have hrows : encodeRows oddImage (ColorMap.empty.set red 48) =
        [⟨[0, 21], [48, 48], [48, 0]⟩, ⟨[3, 1], [48, 48], [0, 0]⟩] := by
      decide
    rw [hg fuel (by omega), hrows]
    rfl

/-- An absent colour is looked up as the zero byte. -/
theorem ColorMap.get_of_none (m : ColorMap) (c : RGBA) (h : m c = none) : m.get c = 0 := by
  simp [ColorMap.get, h]

/-- C8, amended: for every image with a palette of at most 16 colours, whether or not
some pixel has a colour absent from the lookup, `GenerateCode` has no malformed-pixel
failure: it never ends in an error or a panic.  A colour that is not in the palette is
absent from the lookup and read as the zero byte, and that zero byte is the entry of
the pixel in the chunk of its cell.  When the loop counters do not overflow,
`GenerateCode` returns, and every cell of every row is `chunkToByte` of that chunk. -/
theorem GenerateCode_absent_colour_zero (palette : List RGBA) (img : Image)
    (hp : palette.length ≤ 16) :
    ∃ paletteToColor, paletteLoop palette 0 ColorMap.empty = .ok paletteToColor ∧
      (∀ c, c ∉ palette → paletteToColor c = none ∧ paletteToColor.get c = 0) ∧
      (∀ (x y : Int) (dx dy : Nat), dx < 2 → dy < 3 →
        img.At (wrapInt64 (x + dx)) (wrapInt64 (y + dy)) ∉ palette →
        (buildChunkInt64 img paletteToColor x y)[2 * dy + dx]? = some 0) ∧
      (∀ (x y : Int) (dx dy : Nat), dx < 2 → dy < 3 →
        img.At (x + dx) (y + dy) ∉ palette →
        (buildChunk img paletteToColor x y)[2 * dy + dx]? = some 0) ∧
      (∀ fuel e, GenerateCodeInt64 fuel palette img ≠ some (.error e)) ∧
      (img.Bounds.inInt64 →
        img.Bounds.Min.X + 2 * ((img.Bounds.Dx + 1) / 2) ≤ maxInt64 →
        img.Bounds.Min.Y + 3 * ((img.Bounds.Dy + 2) / 3) ≤ maxInt64 →
        ∃ d N, (∀ fuel, N ≤ fuel → GenerateCodeInt64 fuel palette img = some (.ok d)) ∧
          ∀ (r k : Nat), 3 * (r : Int) < img.Bounds.Dy → 2 * (k : Int) < img.Bounds.Dx →
            ∃ row b textColor bgColor, d.Rows[r]? = some row ∧
              row.Text[k]? = some b ∧ row.TextColor[k]? = some textColor ∧
              row.BgColor[k]? = some bgColor ∧
              chunkToByte (buildChunkInt64 img paletteToColor
                (img.Bounds.Min.X + 2 * k) (img.Bounds.Min.Y + 3 * r)) =
                some (b, textColor, bgColor)) := by
  obtain ⟨m, hm, hout, -⟩ := paletteLoop_spec palette 0 ColorMap.empty (by omega)
  have habs : ∀ c, c ∉ palette → m c = none ∧ m.get c = 0 := by
    intro c hc
    have h := hout c hc
    have hnone : m c = none := by rw [h]; rfl
    exact ⟨hnone, ColorMap.get_of_none m c hnone⟩
  refine ⟨m, hm, habs, ?_, ?_, fun fuel e => GenerateCodeInt64_ne_error palette img hp fuel e, ?_⟩
  · intro x y dx dy hdx hdy hc
    have h0 := (habs _ hc).2
    rw [buildChunkInt64_eq]
    interval_cases dx <;> interval_cases dy <;>
      simp only [Nat.cast_zero, Nat.cast_one, Nat.cast_ofNat, add_zero] at h0 <;>
      simp [h0]
  · intro x y dx dy hdx hdy hc
    have h0 := (habs _ hc).2
    rw [buildChunk_eq]
    unfold blockChunk
    interval_cases dx <;> interval_cases dy <;>
      simp only [Nat.cast_zero, Nat.cast_one, Nat.cast_ofNat, add_zero] at h0 <;>
      simp [h0]
  · intro hin hx hy
    have hwf := img.wellFormed
    have hdx : 0 ≤ img.Bounds.Dx := by unfold Rectangle.Dx; omega
    have hdy : 0 ≤ img.Bounds.Dy := by unfold Rectangle.Dy; omega
    have hco : (columns img : Int) = (img.Bounds.Dx + 1) / 2 := by unfold columns; omega
    have hbr : (blockRows img : Int) = (img.Bounds.Dy + 2) / 3 := by unfold blockRows; omega
    obtain ⟨m', hm', hg⟩ := GenerateCodeInt64_eq palette img hp hin
      (by rw [hco]; exact hx) (by rw [hbr]; exact hy)
    rw [hm] at hm'
    cases hm'
    refine ⟨_, columns img + blockRows img + 1, fun fuel hf => hg fuel (by omega), ?_⟩
    intro r k hr hk
    have hr' : r < blockRows img := by omega
    have hk' : k < columns img := by omega
    obtain ⟨i1, i2, i3, i4⟩ := hin
    have hchunk : buildChunkInt64 img m (img.Bounds.Min.X + 2 * k) (img.Bounds.Min.Y + 3 * r) =
        blockChunk img m (img.Bounds.Min.X + 2 * k) (img.Bounds.Min.Y + 3 * r) := by
      apply buildChunkInt64_of_range <;> omega
    rw [hchunk]
    refine ⟨_, (encodeBlock img m (img.Bounds.Min.X + 2 * k) (img.Bounds.Min.Y + 3 * r)).1,
      (encodeBlock img m (img.Bounds.Min.X + 2 * k) (img.Bounds.Min.Y + 3 * r)).2.1,
      (encodeBlock img m (img.Bounds.Min.X + 2 * k) (img.Bounds.Min.Y + 3 * r)).2.2,
      encodeRows_getElem? img m r hr', ?_, ?_, ?_, ?_⟩
    · simp only [encodeRow, List.getElem?_map, List.getElem?_range hk', Option.map_some']
    · simp only [encodeRow, List.getElem?_map, List.getElem?_range hk', Option.map_some']
    · simp only [encodeRow, List.getElem?_map, List.getElem?_range hk', Option.map_some']
    · exact chunkToByte_blockChunk img m _ _

/-- Witness of C8, amended: `strayImage` with the palette `[red]`: blue is read as the
zero byte, which is entry 0 of the chunk of the cell, and the cell is
`chunkToByte [0, '0', '0', '0', '0', '0'] = (1, '0', '0')`. -/
theorem GenerateCode_absent_colour_zero_witness :
    [red].length ≤ 16 ∧ blue ∉ [red] ∧ strayImage.At 0 0 = blue ∧
    strayImage.Bounds.inInt64 ∧
    strayImage.Bounds.Min.X + 2 * ((strayImage.Bounds.Dx + 1) / 2) ≤ maxInt64 ∧
    strayImage.Bounds.Min.Y + 3 * ((strayImage.Bounds.Dy + 2) / 3) ≤ maxInt64 ∧
    ∃ m, paletteLoop [red] 0 ColorMap.empty = .ok m ∧
      m blue = none ∧ m.get blue = 0 ∧
      (buildChunkInt64 strayImage m 0 0)[0]? = some 0 ∧
      (buildChunk strayImage m 0 0)[0]? = some 0 ∧
      buildChunkInt64 strayImage m 0 0 = [0, 48, 48, 48, 48, 48] ∧
      (∀ fuel e, GenerateCodeInt64 fuel [red] strayImage ≠ some (.error e)) ∧
      ∃ d N, (∀ fuel, N ≤ fuel → GenerateCodeInt64 fuel [red] strayImage = some (.ok d)) ∧
        ∃ row, d.Rows[0]? = some row ∧ row.Text[0]? = some 1 ∧
          row.TextColor[0]? = some 48 ∧ row.BgColor[0]? = some 48 := by
  refine ⟨by decide, by decide, by decide, by decide, by decide, by decide, ?_⟩
  obtain ⟨m, hm, habs, hc64, hc, hne, hok⟩ :=
    GenerateCode_absent_colour_zero [red] strayImage (by decide)
  have hm' : paletteLoop [red] 0 ColorMap.empty = .ok (ColorMap.empty.set red 48) := rfl
  rw [hm'] at hm
  cases hm
  obtain ⟨d, N, hd, hcell⟩ := hok (by decide) (by decide) (by decide)
  obtain ⟨row, b, tc, bg, h1, h2, h3, h4, h5⟩ := hcell 0 0 (by decide) (by decide)
  have hchunk : buildChunkInt64 strayImage (ColorMap.empty.set red 48)
      (strayImage.Bounds.Min.X + 2 * ((0 : Nat) : Int))
      (strayImage.Bounds.Min.Y + 3 * ((0 : Nat) : Int)) = [0, 48, 48, 48, 48, 48] := by
    decide
  rw [hchunk] at h5
  have h6 : chunkToByte [0, 48, 48, 48, 48, 48] = some (1, 48, 48) := by decide
  rw [h6] at h5
  cases h5
  exact ⟨_, rfl, (habs blue (by decide)).1, (habs blue (by decide)).2,
    hc64 0 0 0 0 (by decide) (by decide) (by decide),
    hc 0 0 0 0 (by decide) (by decide) (by decide),
    by decide, hne, d, N, hd, row, h1, h2, h3, h4⟩

/-- C17, counterexample: `edgeImage` has width 1 and height 3, both `≥ 0`, and its
`Max.X` is the greatest `int`.  After the first cell `x += 2` wraps around to the least
`int`, which is below `Max.X`, and from then on `x` is even and stays below the odd
`Max.X`: the column loop never ends, so `GenerateCode` never emits the one row of one
cell that the claim states. -/
theorem GenerateCodeInt64_overflow_counterexample :
    [red].length ≤ 16 ∧ edgeImage.Bounds.inInt64 ∧
    wrapInt64 edgeImage.Bounds.Dx = 1 ∧ wrapInt64 edgeImage.Bounds.Dy = 3 ∧
    edgeImage.Bounds.Min.X < edgeImage.Bounds.Max.X ∧
    wrapInt64 (edgeImage.Bounds.Min.X + 2) = minInt64 ∧
    minInt64 < edgeImage.Bounds.Max.X ∧
    (∀ (m : ColorMap) (y : Int) (fuel : Nat) (row : rowData),
      colLoopInt64 edgeImage m y fuel edgeImage.Bounds.Min.X row = none) ∧
    (∀ fuel, GenerateCodeInt64 fuel [red] edgeImage = none) := by
  have hcol : ∀ (m : ColorMap) (y : Int) (fuel : Nat) (row : rowData),
      colLoopInt64 edgeImage m y fuel edgeImage.Bounds.Min.X row = none := by
    intro m y fuel row
    exact colLoopInt64_diverges edgeImage m y rfl fuel _ row (by decide) (by decide) (by decide)
  refine ⟨by decide, by decide, by decide, by decide, by decide, by decide, by decide, hcol, ?_⟩
  intro fuel
  have hm : paletteLoop [red] 0 ColorMap.empty = .ok (ColorMap.empty.set red 48) := rfl
  simp only [GenerateCodeInt64, hm]
  rw [if_neg (by decide)]
  cases fuel with
  | zero => rfl
  | succ f =>
    have hy : edgeImage.Bounds.Min.Y < edgeImage.Bounds.Max.Y := by decide
    rw [rowLoopInt64, if_pos hy, hcol]

/-- C17, amended: without the divisibility preconditions, for every image of width
`w ≥ 0` and height `h ≥ 0` (as the program computes them) with a palette of at most 16
colours, whose loop counters do not overflow (`Min.X + 2 * ceil(w / 2)` and
`Min.Y + 3 * ceil(h / 3)` are at most the greatest `int`), `GenerateCode` returns, its
row loop emits `ceil(h / 3) = (h + 2) / 3` rows of `ceil(w / 2) = (w + 1) / 2` cells
each, while the reported size is `(floor(w / 2), floor(h / 3))`; the number of rows is
the reported height iff 3 divides `h`, and every row has the reported width iff 2
divides `w` or there are no rows. -/
theorem GenerateCodeInt64_without_divisibility (palette : List RGBA) (img : Image)
    (hp : palette.length ≤ 16) (hin : img.Bounds.inInt64)
    (hw : 0 ≤ wrapInt64 img.Bounds.Dx) (hh : 0 ≤ wrapInt64 img.Bounds.Dy)
    (hx : img.Bounds.Min.X + 2 * ((img.Bounds.Dx + 1) / 2) ≤ maxInt64)
    (hy : img.Bounds.Min.Y + 3 * ((img.Bounds.Dy + 2) / 3) ≤ maxInt64) :
    ∃ d N, (∀ fuel, N ≤ fuel → GenerateCodeInt64 fuel palette img = some (.ok d)) ∧
      (d.Rows.length : Int) = (img.Bounds.Dy + 2) / 3 ∧
      img.Bounds.Dy ≤ 3 * (d.Rows.length : Int) ∧
      3 * (d.Rows.length : Int) < img.Bounds.Dy + 3 ∧
      (∀ row ∈ d.Rows,
        (row.Text.length : Int) = (img.Bounds.Dx + 1) / 2 ∧
        row.TextColor.length = row.Text.length ∧ row.BgColor.length = row.Text.length ∧
        img.Bounds.Dx ≤ 2 * (row.Text.length : Int) ∧
        2 * (row.Text.length : Int) < img.Bounds.Dx + 2) ∧
      d.Width = img.Bounds.Dx / 2 ∧ d.Height = img.Bounds.Dy / 3 ∧
      ((d.Rows.length : Int) = d.Height ↔ img.Bounds.Dy % 3 = 0) ∧
      ((∀ row ∈ d.Rows, (row.Text.length : Int) = d.Width) ↔
        (img.Bounds.Dx % 2 = 0 ∨ d.Rows = [])) := by
  have hwf := img.wellFormed
  obtain ⟨i1, i2, i3, i4⟩ := hin
  have hdx : 0 ≤ img.Bounds.Dx := by unfold Rectangle.Dx; omega
  have hdy : 0 ≤ img.Bounds.Dy := by unfold Rectangle.Dy; omega
  have hco : (columns img : Int) = (img.Bounds.Dx + 1) / 2 := by unfold columns; omega
  have hbr : (blockRows img : Int) = (img.Bounds.Dy + 2) / 3 := by unfold blockRows; omega
  have hwx : wrapInt64 (img.Bounds.Max.X - img.Bounds.Min.X) = img.Bounds.Dx := by
    unfold Rectangle.Dx wrapInt64 at *
    unfold minInt64 at i1
    unfold maxInt64 at i2
    omega
  have hwy : wrapInt64 (img.Bounds.Max.Y - img.Bounds.Min.Y) = img.Bounds.Dy := by
    unfold Rectangle.Dy wrapInt64 at *
    unfold minInt64 at i3
    unfold maxInt64 at i4
    omega
  obtain ⟨m, hm, hg⟩ := GenerateCodeInt64_eq palette img hp ⟨i1, i2, i3, i4⟩
    (by rw [hco]; exact hx) (by rw [hbr]; exact hy)
  obtain ⟨m', hm', hg'⟩ := GenerateCode_eq palette img hp
  rw [hm] at hm'
  cases hm'
  obtain ⟨d, hd, hrest⟩ := GenerateCode_loop_counts palette img hp
  refine ⟨d, columns img + blockRows img + 1, ?_, hrest⟩
  intro fuel hf
  rw [hg fuel (by omega), hwx, hwy]
  rw [hg'] at hd
  cases hd
  rfl

/-- Witness of C17, amended: the 3×4 image `oddImage` with the palette `[red]`: two
rows of two cells are emitted and the size `(1, 1)` is reported. -/
theorem GenerateCodeInt64_without_divisibility_witness :
    [red].length ≤ 16 ∧ oddImage.Bounds.inInt64 ∧
    0 ≤ wrapInt64 oddImage.Bounds.Dx ∧ 0 ≤ wrapInt64 oddImage.Bounds.Dy ∧
    oddImage.Bounds.Min.X + 2 * ((oddImage.Bounds.Dx + 1) / 2) ≤ maxInt64 ∧
    oddImage.Bounds.Min.Y + 3 * ((oddImage.Bounds.Dy + 2) / 3) ≤ maxInt64 ∧
    oddImage.Bounds.Dx = 3 ∧ oddImage.Bounds.Dy = 4 ∧
    GenerateCodeInt64 5 [red] oddImage =
      some (.ok ⟨[⟨[0, 21], [48, 48], [48, 0]⟩, ⟨[3, 1], [48, 48], [0, 0]⟩], [red], 1, 1⟩) ∧
    ∃ d N, (∀ fuel, N ≤ fuel → GenerateCodeInt64 fuel [red] oddImage = some (.ok d)) ∧
      (d.Rows.length : Int) = (oddImage.Bounds.Dy + 2) / 3 ∧
      oddImage.Bounds.Dy ≤ 3 * (d.Rows.length : Int) ∧
      3 * (d.Rows.length : Int) < oddImage.Bounds.Dy + 3 ∧
      (∀ row ∈ d.Rows,
        (row.Text.length : Int) = (oddImage.Bounds.Dx + 1) / 2 ∧
        row.TextColor.length = row.Text.length ∧ row.BgColor.length = row.Text.length ∧
        oddImage.Bounds.Dx ≤ 2 * (row.Text.length : Int) ∧
        2 * (row.Text.length : Int) < oddImage.Bounds.Dx + 2) ∧
      d.Width = oddImage.Bounds.Dx / 2 ∧ d.Height = oddImage.Bounds.Dy / 3 ∧
      ((d.Rows.length : Int) = d.Height ↔ oddImage.Bounds.Dy % 3 = 0) ∧
      ((∀ row ∈ d.Rows, (row.Text.length : Int) = d.Width) ↔
        (oddImage.Bounds.Dx % 2 = 0 ∨ d.Rows = [])) :=
  ⟨by decide, by decide, by decide, by decide, by decide, by decide, by decide, by decide, rfl,
    GenerateCodeInt64_without_divisibility [red] oddImage (by decide) (by decide) (by decide)
      (by decide) (by decide) (by decide)⟩

end Juroku
